import Mathlib

/-!
# Tic-Tac-Toe (`src/ticTacToe.cpp`): embedding and verified properties

The C++ program keeps a `char board[3][3]`, two `int` coordinates, an `int`
player identifier and three `bool` flags that are passed by reference.  The
embedding below turns every function of the source into a Lean function with
explicit state passing:

* the board is a function from two indices in `{0,1,2}` to characters;
* an `int` is an `Int` (no arithmetic is performed on it, only comparisons);
* a by-reference out-parameter becomes a component of the returned value;
* `std::cin >> row >> col` reads the next pair of a list of the integers typed;
  an exhausted list means that the read never completes, and a number outside
  the range of the 32-bit `int` makes the stream fail, which the source never
  tests nor clears;
* an array access outside `[0,2]` has no defined behaviour in the source and is
  modelled by `none`.
-/

namespace TicTacToe

/-! ## Data model -/

/-- The array `char board[3][3]`. -/
abbrev Board := Fin 3 → Fin 3 → Char

/-- The integers typed by the players, consumed two at a time by
`std::cin >> row >> col`. -/
abbrev Input := List (Int × Int)

/-- The values taken by the counter of `for (int i = 0; i < 3; i++)`, in order. -/
def indices : List (Fin 3) := [0, 1, 2]

/-- Conversion of an `int` subscript into an index of the array; `none` when
the subscript is outside the array. -/
def subscript (i : Int) : Option (Fin 3) :=
  if i = 0 then some 0 else if i = 1 then some 1 else if i = 2 then some 2 else none

/-- The assignment `board[row][col] = letter`. -/
def setCell (board : Board) (row col : Fin 3) (letter : Char) : Board :=
  fun r c => if r = row ∧ c = col then letter else board r c

/-! ## The functions of the source -/

/-- Source `gameBoard` (lines 149-158): both loops run over `0,1,2` and store a
blank in every cell. -/
def gameBoard (board : Board) : Board :=
  indices.foldl (fun b row => indices.foldl (fun b' col => setCell b' row col ' ') b) board

/-- Source `fillBoard` (lines 180-192).  The result is the board together with
the out-parameter `legalMove`; `none` when `board[row][col]` is outside the
array. -/
def fillBoard (board : Board) (row col : Int) (letter : Char) : Option (Board × Bool) :=
  match subscript row, subscript col with
  | some r, some c =>
    if board r c = ' ' then some (setCell board r c letter, true)
    else some (board, false)
  | _, _ => none

/-- The loop condition of `getPosition` (lines 202 and 207). -/
def outOfBound (row col : Int) : Bool :=
  decide (row < 0) || decide (row > 2) || decide (col < 0) || decide (col > 2)

/-- The local variable `letter` of `getPosition` (line 196): the mark named in
the prompt. -/
def getPositionLetter (curPosition : Int) : Char :=
  if curPosition = 0 then 'O' else 'X'

/-- The values of the type `int` of `row` and `col` (lines 95-96): 32 bits. -/
def fitsInt (i : Int) : Bool :=
  decide (-2147483648 ≤ i) && decide (i ≤ 2147483647)

/-- The value `std::cin >> row` stores for the number `i` typed: `i` itself when
it is a value of `int`, else `INT_MIN` or `INT_MAX`, the stream then being in
the failed state. -/
def stored (i : Int) : Int :=
  if i < -2147483648 then -2147483648 else if 2147483647 < i then 2147483647 else i

/-- What a call of `getPosition` comes to. -/
inductive Asked where
  /-- It returns with `row` and `col` set, the pairs of `rest` being unread. -/
  | pair (row col : Int) (rest : Input)
  /-- It waits in `std::cin`: no input is left. -/
  | waits
  /-- A number outside the range of `int` was typed.  The extraction stores
  `INT_MIN` or `INT_MAX` and sets `failbit`; every later extraction leaves `row`
  and `col` as they are, the test of line 207 stays true and the loop never
  ends.  The pairs of `rest` are never read. -/
  | fails (rest : Input)

/-- Source `getPosition` (lines 194-208): pairs are read until one has both
components in `[0,2]`. -/
def getPosition (curPosition : Int) : Input → Asked
  | [] => Asked.waits
  | (row, col) :: rest =>
    if fitsInt row && fitsInt col then
      if outOfBound row col then getPosition curPosition rest
      else Asked.pair row col rest
    else Asked.fails rest

/-- The prompts printed by one call of `getPosition` (line 199), by the mark
each names: one per pair read, plus the prompt that stays unanswered when the
input ends.  When the stream fails the list ends with the prompt answered by the
number out of the range of `int`; that prompt is then printed again without
end. -/
def getPositionPrompts (curPosition : Int) : Input → List Char
  | [] => [getPositionLetter curPosition]
  | (row, col) :: rest =>
    if fitsInt row && fitsInt col then
      if outOfBound row col then
        getPositionLetter curPosition :: getPositionPrompts curPosition rest
      else [getPositionLetter curPosition]
    else [getPositionLetter curPosition]

/-- Source `gameOver` (lines 210-223): `false` at the first blank cell met,
`true` when both loops finish. -/
def gameOver (board : Board) : Bool :=
  indices.all fun row => indices.all fun col => !(board row col == ' ')

/-- Source `changePlayer` (lines 225-235). -/
def changePlayer (curPlayer : Int) : Int :=
  if curPlayer = 0 then 1 else 0

/-- The `for` loop of `checkWin` (lines 239-254): `true` when one of its two
tests succeeds for some `i`, which makes `checkWin` return early. -/
def checkWinLoop (board : Board) : List (Fin 3) → Bool
  | [] => false
  | i :: is =>
    if board i 0 ≠ ' ' ∧ board i 0 = board i 1 ∧ board i 1 = board i 2 then true
    else if board 0 i ≠ ' ' ∧ board 0 i = board 1 i ∧ board 1 i = board 2 i then true
    else checkWinLoop board is

/-- Source `checkWin` (lines 237-277).  The result is the pair of the
out-parameters `(isOver, isDraw)` after the call. -/
def checkWin (board : Board) (isOver isDraw : Bool) : Bool × Bool :=
  if checkWinLoop board indices then (true, false)
  else if board 0 0 ≠ ' ' ∧ board 0 0 = board 1 1 ∧ board 1 1 = board 2 2 then (true, false)
  else if board 0 2 ≠ ' ' ∧ board 0 2 = board 1 1 ∧ board 1 1 = board 2 0 then (true, false)
  else if gameOver board then (true, true)
  else (isOver, isDraw)

/-- The local variable `player` of `winnerMessage` (line 281): the mark named
in the congratulation. -/
def winnerMessagePlayer (curPlayer : Int) : Char :=
  if curPlayer = 1 then 'O' else 'X'

/-- Source `winnerMessage` (lines 279-285): the three lines printed. -/
def winnerMessage (curPlayer : Int) : List String :=
  ["\n********************* GAME OVER ****************************",
   "Congratulations Player " ++ String.singleton (winnerMessagePlayer curPlayer)
     ++ " !!! You Won!!!",
   "Thank You for playing"]

/-! ## The game loop of `main` -/

/-- The local variables of `main` that the game loop reads and writes.  `row`
and `col` are written by `getPosition` before every use and are not kept. -/
structure Vars where
  board : Board
  currentPlayer : Int
  isOver : Bool
  isDraw : Bool
  legalMove : Bool

/-- The calls made by `main`, in the order of execution, each with the values
it is made on. -/
inductive Event where
  /-- Line 118, `displayBoard(board)`, at the head of an iteration. -/
  | display (board : Board) (currentPlayer : Int)
  /-- Line 119, `checkWin(board, isOver, isDraw)`, with the flags it leaves. -/
  | check (board : Board) (isOver isDraw : Bool)
  /-- Line 127, `getPosition(row, col, currentPlayer)`, with the marks named in
  the prompts it prints. -/
  | solicit (board : Board) (currentPlayer : Int) (prompts : List Char)
  /-- Lines 130 and 134, `fillBoard(board, row, col, letter, legalMove)`, with
  the flag and the board it leaves. -/
  | fill (board : Board) (currentPlayer : Int) (row col : Int) (letter : Char)
      (legalMove : Bool) (after : Board)
  /-- Line 139, `changePlayer(currentPlayer)`, with the identifier it leaves. -/
  | change (board : Board) (curPlayer : Int) (after : Int)
  /-- Line 143, `winnerMessage(currentPlayer)`, with the mark it names. -/
  | winner (curPlayer : Int) (player : Char)

/-- How a loop or `main` stops. -/
inductive Status where
  /-- The loop was left, or `main` returned. -/
  | done
  /-- The program waits in `std::cin` and no input is left. -/
  | awaitingInput
  /-- The stream has failed and the loop of `getPosition` never ends. -/
  | streamFailed
  /-- The array was accessed outside its bounds. -/
  | undefinedAccess
  /-- The step budget of the model was used up. -/
  | outOfFuel
  deriving DecidableEq, Repr

/-- The outcome of running a piece of `main`. -/
structure Run where
  events : List Event
  vars : Vars
  input : Input
  status : Status

/-- The events `evs` followed by the run `r`. -/
def Run.after (evs : List Event) (r : Run) : Run :=
  { r with events := evs ++ r.events }

/-- The two branches of lines 128-135: the call of `fillBoard` chosen by
`currentPlayer`, if any.  `none` when the call accesses the array outside its
bounds. -/
def placeMark (v : Vars) (row col : Int) : Option (Vars × List Event) :=
  if v.currentPlayer = 0 then
    match fillBoard v.board row col 'O' with
    | some (board, legalMove) =>
      let ev := Event.fill v.board v.currentPlayer row col 'O' legalMove board
      some ({ v with board := board, legalMove := legalMove }, [ev])
    | none => none
  else if v.currentPlayer = 1 then
    match fillBoard v.board row col 'X' with
    | some (board, legalMove) =>
      let ev := Event.fill v.board v.currentPlayer row col 'X' legalMove board
      some ({ v with board := board, legalMove := legalMove }, [ev])
    | none => none
  else some (v, [])

/-- The loop `do { ... } while (!legalMove);` of `main` (lines 125-137). -/
def doWhile : Nat → Vars → Input → Run
  | 0, v, input => ⟨[], v, input, Status.outOfFuel⟩
  | fuel + 1, v, input =>
    let ask := Event.solicit v.board v.currentPlayer (getPositionPrompts v.currentPlayer input)
    match getPosition v.currentPlayer input with
    | Asked.waits => ⟨[ask], v, [], Status.awaitingInput⟩
    | Asked.fails rest => ⟨[ask], v, rest, Status.streamFailed⟩
    | Asked.pair row col rest =>
      match placeMark v row col with
      | none => ⟨[ask], v, rest, Status.undefinedAccess⟩
      | some (v', evs) =>
        if !v'.legalMove then Run.after (ask :: evs) (doWhile fuel v' rest)
        else ⟨ask :: evs, v', rest, Status.done⟩

/-- The loop `while (!isOver) { ... }` of `main` (lines 116-140). -/
def mainLoop : Nat → Vars → Input → Run
  | 0, v, input => ⟨[], v, input, Status.outOfFuel⟩
  | fuel + 1, v, input =>
    if v.isOver then ⟨[], v, input, Status.done⟩
    else
      let flags := checkWin v.board v.isOver v.isDraw
      let head := [Event.display v.board v.currentPlayer, Event.check v.board flags.1 flags.2]
      let v1 : Vars := { v with isOver := flags.1, isDraw := flags.2 }
      if v1.isOver then ⟨head, v1, input, Status.done⟩
      else
        let r := doWhile (fuel + 1) v1 input
        match r.status with
        | Status.done =>
          let next := changePlayer r.vars.currentPlayer
          let ev := Event.change r.vars.board r.vars.currentPlayer next
          Run.after (head ++ r.events ++ [ev])
            (mainLoop fuel { r.vars with currentPlayer := next } r.input)
        | _ => Run.after head r

/-- Source `main` (lines 91-147).  The arguments `board`, `isOver`, `isDraw`
and `legalMove` are the values the uninitialised locals hold when `main` starts
(lines 93, 97, 101, 102).  Each pass of either loop reads at least one pair, so
a budget of one more than the number of pairs is never used up. -/
def main (board : Board) (isOver isDraw legalMove : Bool) (input : Input) : Run :=
  let v0 : Vars := ⟨gameBoard board, 0, isOver, isDraw, legalMove⟩
  let r := mainLoop (input.length + 1) v0 input
  match r.status with
  | Status.done =>
    if !r.vars.isDraw then
      let ev := Event.winner r.vars.currentPlayer (winnerMessagePlayer r.vars.currentPlayer)
      Run.after r.events ⟨[ev], r.vars, r.input, Status.done⟩
    else r
  | _ => r

/-! ## Vocabulary of the specification -/

/-- A position of the grid: row and column. -/
abbrev Cell := Fin 3 × Fin 3

/-- The 8 winning lines of the glossary: 3 rows, 3 columns, 2 diagonals. -/
def winningLines : List (Cell × Cell × Cell) :=
  [((0, 0), (0, 1), (0, 2)), ((1, 0), (1, 1), (1, 2)), ((2, 0), (2, 1), (2, 2)),
   ((0, 0), (1, 0), (2, 0)), ((0, 1), (1, 1), (2, 1)), ((0, 2), (1, 2), (2, 2)),
   ((0, 0), (1, 1), (2, 2)), ((0, 2), (1, 1), (2, 0))]

/-- The three cells of the line hold the same mark `m`, which is not a blank. -/
def lineOf (board : Board) (m : Char) (l : Cell × Cell × Cell) : Prop :=
  m ≠ ' ' ∧ board l.1.1 l.1.2 = m ∧ board l.2.1.1 l.2.1.2 = m ∧ board l.2.2.1 l.2.2.2 = m

/-- The line holds three equal non-blank cells. -/
def lineComplete (board : Board) (l : Cell × Cell × Cell) : Prop :=
  ∃ m, lineOf board m l

/-- At least one of the 8 lines holds three equal non-blank cells. -/
def hasLine (board : Board) : Prop :=
  ∃ l ∈ winningLines, lineComplete board l

/-- All 9 cells are non-blank. -/
def isFull (board : Board) : Prop :=
  ∀ row col, board row col ≠ ' '

/-- The board read at two `int` subscripts; `none` outside the array. -/
def readCell (board : Board) (row col : Int) : Option Char :=
  match subscript row, subscript col with
  | some r, some c => some (board r c)
  | _, _ => none

/-- The 9 positions of the grid. -/
def allCells : List Cell :=
  [(0, 0), (0, 1), (0, 2), (1, 0), (1, 1), (1, 2), (2, 0), (2, 1), (2, 2)]

/-- The number of non-blank cells of the board. -/
def countMarks (board : Board) : Nat :=
  allCells.countP fun p => board p.1 p.2 != ' '

/-- A sequence of calls of `fillBoard`, each made on the board left by the call
before it.  The result is the last board and the number of calls that left
`legalMove = true`; `none` when a call accesses the array outside its bounds. -/
def fillAll (board : Board) : List (Int × Int × Char) → Option (Board × Nat)
  | [] => some (board, 0)
  | (row, col, letter) :: rest =>
    match fillBoard board row col letter with
    | none => none
    | some (after, legalMove) =>
      match fillAll after rest with
      | none => none
      | some (last, n) => some (last, if legalMove then n + 1 else n)

/-- The board on which the event solicits or applies a placement, if it does
either. -/
def Event.placementBoard : Event → Option Board
  | Event.solicit board _ _ => some board
  | Event.fill board _ _ _ _ _ _ => some board
  | _ => none

/-- The boards the event is made on or leaves. -/
def Event.boards : Event → List Board
  | Event.display board _ => [board]
  | Event.check board _ _ => [board]
  | Event.solicit board _ _ => [board]
  | Event.fill board _ _ _ _ _ after => [board, after]
  | Event.change board _ _ => [board]
  | Event.winner _ _ => []

/-- The marks written by the accepted calls of `fillBoard`, in order. -/
def acceptedMarks : List Event → List Char
  | [] => []
  | Event.fill _ _ _ _ letter true _ :: rest => letter :: acceptedMarks rest
  | _ :: rest => acceptedMarks rest

/-- Relation between an event and a later one: if the earlier event is made on
or leaves a board with a complete line or without blank cell, the later event
neither solicits nor applies a placement, is on that same board, and if it is a
call of `checkWin` it reports the game as over, as a draw exactly when the
board has no complete line. -/
def FrozenAfter (e1 e2 : Event) : Prop :=
  ∀ b ∈ e1.boards, (hasLine b ∨ isFull b) →
    e2.placementBoard = none ∧ (∀ b' ∈ e2.boards, b' = b) ∧
    (∀ b' o d, e2 = Event.check b' o d → o = true ∧ (d = true ↔ ¬ hasLine b))

/-- The event is a call of `fillBoard` that left `legalMove = false`. -/
def Event.IsRejected (e : Event) : Prop :=
  ∃ b cur row col letter after, e = Event.fill b cur row col letter false after

/-- Relation between an event and the next one: a rejected call of `fillBoard`
leaves the board as it was and is followed by a call of `getPosition` for the
same player on the same board. -/
def AskedAgain (e1 e2 : Event) : Prop :=
  ∀ b cur row col letter after, e1 = Event.fill b cur row col letter false after →
    after = b ∧ ∃ k, e2 = Event.solicit b cur (List.replicate (k + 1) (getPositionLetter cur))

/-- The shape of the events of one run of the do-while of `main` that starts
on `board` with `cur` to move: rejected attempts on the unchanged board, then
either an accepted placement or a call of `getPosition` that does not return
(it waits for input, or the stream has failed).  Indexed by the events, the way
the loop stops and the board it leaves. -/
inductive MoveTrace (board : Board) (cur : Int) : List Event → Status → Board → Prop
  | waiting (k : Nat) (status : Status)
      (hs : status = Status.awaitingInput ∨ status = Status.streamFailed) :
    MoveTrace board cur
      [Event.solicit board cur (List.replicate (k + 1) (getPositionLetter cur))]
      status board
  | accepted (k : Nat) (row col : Int) (r c : Fin 3)
      (hr : subscript row = some r) (hc : subscript col = some c) (hb : board r c = ' ') :
    MoveTrace board cur
      [Event.solicit board cur (List.replicate (k + 1) (getPositionLetter cur)),
       Event.fill board cur row col (getPositionLetter cur) true
         (setCell board r c (getPositionLetter cur))]
      Status.done (setCell board r c (getPositionLetter cur))
  | rejected (k : Nat) (row col : Int) (r c : Fin 3)
      (hr : subscript row = some r) (hc : subscript col = some c) (hb : board r c ≠ ' ')
      (rest : List Event) (status : Status) (last : Board)
      (h : MoveTrace board cur rest status last) :
    MoveTrace board cur
      (Event.solicit board cur (List.replicate (k + 1) (getPositionLetter cur)) ::
        Event.fill board cur row col (getPositionLetter cur) false board :: rest)
      status last

/-- The shape of the events of the while loop of `main` entered with
`isOver = false` on `board`, with `cur` to move and `isDraw` holding `draw`.
Indexed by the events, the way the loop stops, and the board, the player
identifier and the flags `isOver` and `isDraw` it leaves. -/
inductive GameTrace :
    Board → Int → Bool → List Event → Status → Board → Int → Bool → Bool → Prop
  | over (board : Board) (cur : Int) (draw d : Bool) (hcur : cur = 0 ∨ cur = 1)
      (hcheck : checkWin board false draw = (true, d)) :
    GameTrace board cur draw [Event.display board cur, Event.check board true d]
      Status.done board cur true d
  | waiting (board : Board) (cur : Int) (draw : Bool) (moves : List Event) (status : Status)
      (hcur : cur = 0 ∨ cur = 1) (hcheck : checkWin board false draw = (false, draw))
      (hs : status = Status.awaitingInput ∨ status = Status.streamFailed)
      (hmoves : MoveTrace board cur moves status board) :
    GameTrace board cur draw
      (Event.display board cur :: Event.check board false draw :: moves)
      status board cur false draw
  | move (board : Board) (cur : Int) (draw : Bool) (moves : List Event) (after : Board)
      (rest : List Event) (status : Status) (last : Board) (lastCur : Int) (o d : Bool)
      (hcur : cur = 0 ∨ cur = 1) (hcheck : checkWin board false draw = (false, draw))
      (hmoves : MoveTrace board cur moves Status.done after)
      (hrest : GameTrace after (changePlayer cur) draw rest status last lastCur o d) :
    GameTrace board cur draw
      (Event.display board cur :: Event.check board false draw ::
        (moves ++ Event.change after cur (changePlayer cur) :: rest))
      status last lastCur o d

/-- The number of cells of the board that hold the mark `m`. -/
def countOf (board : Board) (m : Char) : Nat :=
  allCells.countP fun p => board p.1 p.2 == m

/-- The invariant of the head of the while loop of `main`: every cell is blank,
'X' or 'O', and 'O' has as many cells as 'X' when player 0 is to move, one more
when player 1 is. -/
def Balanced (board : Board) (cur : Int) : Prop :=
  (∀ row col, board row col = ' ' ∨ board row col = 'X' ∨ board row col = 'O') ∧
  (cur = 0 → countOf board 'O' = countOf board 'X') ∧
  (cur = 1 → countOf board 'O' = countOf board 'X' + 1)

/-- The event is a call of `changePlayer`. -/
def Event.IsChange (e : Event) : Prop :=
  ∃ b cur next, e = Event.change b cur next

/-- The event is a call of `fillBoard` that left `legalMove = true`. -/
def Event.IsAccepted (e : Event) : Prop :=
  ∃ b cur row col letter after, e = Event.fill b cur row col letter true after

/-- Relation between an event and the next one: a call of `changePlayer` comes
right after an accepted call of `fillBoard`, on the board that call left and
for the player who made it, and an accepted call of `fillBoard` is followed by
such a call of `changePlayer`. -/
def ChangeFollowsAccepted (e1 e2 : Event) : Prop :=
  (∀ b cur next, e2 = Event.change b cur next →
    next = changePlayer cur ∧ ∃ b0 row col letter, e1 = Event.fill b0 cur row col letter true b) ∧
  (∀ b0 cur row col letter b, e1 = Event.fill b0 cur row col letter true b →
    e2 = Event.change b cur (changePlayer cur))

/-! ## Lemmas on the functions of the source -/

theorem lineComplete_iff (board : Board) (a b c : Cell) :
    lineComplete board (a, b, c) ↔
      board a.1 a.2 ≠ ' ' ∧ board a.1 a.2 = board b.1 b.2 ∧ board b.1 b.2 = board c.1 c.2 := by
  constructor
  · rintro ⟨m, hm, h1, h2, h3⟩
    simp only at h1 h2 h3
    refine ⟨?_, ?_, ?_⟩
    · rw [h1]; exact hm
    · rw [h1, h2]
    · rw [h2, h3]
  · rintro ⟨h1, h2, h3⟩
    exact ⟨board a.1 a.2, h1, rfl, h2.symm, by rw [← h3, ← h2]⟩

theorem ite_true_eq_or (p : Prop) [Decidable p] (b : Bool) :
    (if p then true else b) = (decide p || b) := by
  by_cases h : p <;> simp [h]

theorem checkWinLoop_indices (board : Board) :
    checkWinLoop board indices = true ↔
      lineComplete board ((0, 0), (0, 1), (0, 2)) ∨ lineComplete board ((1, 0), (1, 1), (1, 2)) ∨
      lineComplete board ((2, 0), (2, 1), (2, 2)) ∨ lineComplete board ((0, 0), (1, 0), (2, 0)) ∨
      lineComplete board ((0, 1), (1, 1), (2, 1)) ∨ lineComplete board ((0, 2), (1, 2), (2, 2)) := by
  simp only [lineComplete_iff, checkWinLoop, indices, ite_true_eq_or, Bool.or_eq_true,
    decide_eq_true_eq, Bool.or_false]
  simp only [or_comm, or_left_comm, or_assoc]

theorem hasLine_iff (board : Board) :
    hasLine board ↔
      lineComplete board ((0, 0), (0, 1), (0, 2)) ∨ lineComplete board ((1, 0), (1, 1), (1, 2)) ∨
      lineComplete board ((2, 0), (2, 1), (2, 2)) ∨ lineComplete board ((0, 0), (1, 0), (2, 0)) ∨
      lineComplete board ((0, 1), (1, 1), (2, 1)) ∨ lineComplete board ((0, 2), (1, 2), (2, 2)) ∨
      lineComplete board ((0, 0), (1, 1), (2, 2)) ∨ lineComplete board ((0, 2), (1, 1), (2, 0)) := by
  simp [hasLine, winningLines]

theorem gameOver_iff (board : Board) : gameOver board = true ↔ isFull board := by
  simp only [gameOver, indices, isFull, List.all_cons, List.all_nil, Bool.and_true,
    Bool.and_eq_true, Bool.not_eq_true', beq_eq_false_iff_ne, ne_eq, Fin.forall_fin_succ,
    Fin.forall_fin_zero_pi, Fin.succ_zero_eq_one, Fin.succ_one_eq_two]
  simp [Fin.forall_fin_succ]

theorem hasLine_iff_tests (board : Board) :
    hasLine board ↔
      checkWinLoop board indices = true ∨
      (board 0 0 ≠ ' ' ∧ board 0 0 = board 1 1 ∧ board 1 1 = board 2 2) ∨
      (board 0 2 ≠ ' ' ∧ board 0 2 = board 1 1 ∧ board 1 1 = board 2 0) := by
  have hd1 := lineComplete_iff board (0, 0) (1, 1) (2, 2)
  have hd2 := lineComplete_iff board (0, 2) (1, 1) (2, 0)
  simp only at hd1 hd2
  rw [hasLine_iff, checkWinLoop_indices, ← hd1, ← hd2]
  simp only [or_assoc]

/-- The three outcomes of `checkWin` in terms of the board alone. -/
theorem checkWin_cases (board : Board) (isOver isDraw : Bool) :
    (hasLine board → checkWin board isOver isDraw = (true, false)) ∧
    (¬ hasLine board → isFull board → checkWin board isOver isDraw = (true, true)) ∧
    (¬ hasLine board → ¬ isFull board → checkWin board isOver isDraw = (isOver, isDraw)) := by
  have hfull := gameOver_iff board
  have hline := hasLine_iff_tests board
  unfold checkWin
  by_cases h1 : checkWinLoop board indices = true
  · have : hasLine board := hline.2 (Or.inl h1)
    rw [if_pos h1]
    exact ⟨fun _ => rfl, fun h => absurd this h, fun h => absurd this h⟩
  · rw [if_neg h1]
    by_cases h2 : board 0 0 ≠ ' ' ∧ board 0 0 = board 1 1 ∧ board 1 1 = board 2 2
    · have : hasLine board := hline.2 (Or.inr (Or.inl h2))
      rw [if_pos h2]
      exact ⟨fun _ => rfl, fun h => absurd this h, fun h => absurd this h⟩
    · rw [if_neg h2]
      by_cases h3 : board 0 2 ≠ ' ' ∧ board 0 2 = board 1 1 ∧ board 1 1 = board 2 0
      · have : hasLine board := hline.2 (Or.inr (Or.inr h3))
        rw [if_pos h3]
        exact ⟨fun _ => rfl, fun h => absurd this h, fun h => absurd this h⟩
      · rw [if_neg h3]
        have hno : ¬ hasLine board := by
          intro h
          rcases hline.1 h with h | h | h
          · exact h1 h
          · exact h2 h
          · exact h3 h
        by_cases h4 : gameOver board = true
        · have hf := hfull.1 h4
          rw [if_pos h4]
          exact ⟨fun h => absurd h hno, fun _ _ => rfl, fun _ h => absurd hf h⟩
        · have hf : ¬ isFull board := fun h => h4 (hfull.2 h)
          rw [if_neg h4]
          exact ⟨fun h => absurd h hno, fun _ h => absurd h hf, fun _ _ => rfl⟩

theorem gameBoard_blank (board : Board) (row col : Fin 3) : gameBoard board row col = ' ' := by
  fin_cases row <;> fin_cases col <;> simp [gameBoard, indices, setCell]

theorem subscript_of_range (i : Int) (h : 0 ≤ i ∧ i ≤ 2) :
    ∃ r : Fin 3, subscript i = some r ∧ (r.val : Int) = i := by
  have h3 : i = 0 ∨ i = 1 ∨ i = 2 := by omega
  rcases h3 with h3 | h3 | h3 <;> subst h3
  · exact ⟨0, rfl, rfl⟩
  · exact ⟨1, rfl, rfl⟩
  · exact ⟨2, rfl, rfl⟩

theorem subscript_val (i : Int) (r : Fin 3) (h : subscript i = some r) : (r.val : Int) = i := by
  unfold subscript at h
  split_ifs at h with h0 h1 h2
  · cases h; simp [h0]
  · cases h; simp [h1]
  · cases h; simp [h2]

theorem subscript_eq_none (i : Int) (h : i < 0 ∨ 2 < i) : subscript i = none := by
  unfold subscript
  have h0 : i ≠ 0 := by omega
  have h1 : i ≠ 1 := by omega
  have h2 : i ≠ 2 := by omega
  simp [h0, h1, h2]

theorem fillBoard_of_subscript (board : Board) (row col : Int) (letter : Char) (r c : Fin 3)
    (hr : subscript row = some r) (hc : subscript col = some c) :
    fillBoard board row col letter =
      if board r c = ' ' then some (setCell board r c letter, true) else some (board, false) := by
  simp [fillBoard, hr, hc]

theorem readCell_of_subscript (board : Board) (row col : Int) (r c : Fin 3)
    (hr : subscript row = some r) (hc : subscript col = some c) :
    readCell board row col = some (board r c) := by
  simp [readCell, hr, hc]

/-! ## Win and draw detection -/

/-- C1: with `isOver = false` on entry, `checkWin` leaves `isOver = true` and
`isDraw = false` exactly when one of the 8 lines holds three equal non-blank
cells; the board after O at (0,0), (0,1), (0,2) and X at (1,0), (1,1) is
reported as a win, its top row being held by O. -/
theorem checkWin_win_iff_line :
    (∀ (board : Board) (isDraw : Bool),
      checkWin board false isDraw = (true, false) ↔ hasLine board) ∧
    (∀ (board : Board) (isDraw : Bool), ∃ after,
      fillAll (gameBoard board)
        [(0, 0, 'O'), (1, 0, 'X'), (0, 1, 'O'), (1, 1, 'X'), (0, 2, 'O')] = some (after, 5) ∧
      checkWin after false isDraw = (true, false) ∧
      lineOf after 'O' ((0, 0), (0, 1), (0, 2))) := by
  constructor
  · intro board isDraw
    obtain ⟨hw, hd, hn⟩ := checkWin_cases board false isDraw
    constructor
    · intro h
      by_contra hno
      by_cases hf : isFull board
      · rw [hd hno hf] at h
        simp at h
      · rw [hn hno hf] at h
        simp at h
    · exact hw
  · intro board isDraw
    have hO : lineOf (setCell (setCell (setCell (setCell (setCell (gameBoard board)
        0 0 'O') 1 0 'X') 0 1 'O') 1 1 'X') 0 2 'O') 'O' ((0, 0), (0, 1), (0, 2)) := by
      simp [lineOf, setCell]
    refine ⟨_, ?_, (checkWin_cases _ false isDraw).1 ⟨_, ?_, 'O', hO⟩, hO⟩
    · simp [fillAll, fillBoard, subscript, setCell, gameBoard_blank]
    · simp [winningLines]

/-- C2: with `isOver = false` on entry and any incoming `isDraw`, `checkWin`
leaves `isOver = true` and `isDraw = true` exactly when all 9 cells are
non-blank and none of the 8 lines holds three equal marks; a full board with a
complete line is reported as a win. -/
theorem checkWin_draw_iff_full_no_line :
    (∀ (board : Board) (isDraw : Bool),
      checkWin board false isDraw = (true, true) ↔ (isFull board ∧ ¬ hasLine board)) ∧
    (∀ (board : Board) (isDraw : Bool),
      isFull board ∧ hasLine board → checkWin board false isDraw = (true, false)) := by
  constructor
  · intro board isDraw
    obtain ⟨hw, hd, hn⟩ := checkWin_cases board false isDraw
    constructor
    · intro h
      by_cases hl : hasLine board
      · rw [hw hl] at h
        simp at h
      · by_cases hf : isFull board
        · exact ⟨hf, hl⟩
        · rw [hn hl hf] at h
          simp at h
    · rintro ⟨hf, hl⟩
      exact hd hl hf
  · rintro board isDraw ⟨_, hl⟩
    exact (checkWin_cases board false isDraw).1 hl

/-- A full board without a complete line (O X O / O X X / X O O) is reported as
a draw, and a full board with a complete line (the column of O at the left) as
a win: the two directions of C2 at concrete boards. -/
theorem checkWin_draw_iff_full_no_line_witness :
    (∃ after, fillAll (gameBoard fun _ _ => 'q')
        [(0, 0, 'O'), (0, 1, 'X'), (0, 2, 'O'), (1, 1, 'X'), (1, 0, 'O'), (1, 2, 'X'),
         (2, 1, 'O'), (2, 0, 'X'), (2, 2, 'O')] = some (after, 9) ∧
      isFull after ∧ ¬ hasLine after ∧ checkWin after false false = (true, true)) ∧
    (∃ after, fillAll (gameBoard fun _ _ => 'q')
        [(0, 0, 'O'), (0, 1, 'X'), (1, 0, 'O'), (0, 2, 'X'), (1, 1, 'X'), (1, 2, 'O'),
         (2, 1, 'X'), (2, 2, 'O'), (2, 0, 'O')] = some (after, 9) ∧
      isFull after ∧ hasLine after ∧ checkWin after false true = (true, false)) := by
  constructor
  · have hf : isFull (setCell (setCell (setCell (setCell (setCell (setCell (setCell (setCell
        (setCell (gameBoard fun _ _ => 'q') 0 0 'O') 0 1 'X') 0 2 'O') 1 1 'X') 1 0 'O')
        1 2 'X') 2 1 'O') 2 0 'X') 2 2 'O') := by
      intro row col
      fin_cases row <;> fin_cases col <;> simp [setCell]
    have hl : ¬ hasLine (setCell (setCell (setCell (setCell (setCell (setCell (setCell (setCell
        (setCell (gameBoard fun _ _ => 'q') 0 0 'O') 0 1 'X') 0 2 'O') 1 1 'X') 1 0 'O')
        1 2 'X') 2 1 'O') 2 0 'X') 2 2 'O') := by
      rw [hasLine_iff]
      simp [lineComplete_iff, setCell]
    exact ⟨_, by simp [fillAll, fillBoard, subscript, setCell, gameBoard_blank], hf, hl,
      (checkWin_draw_iff_full_no_line.1 _ false).2 ⟨hf, hl⟩⟩
  · have hf : isFull (setCell (setCell (setCell (setCell (setCell (setCell (setCell (setCell
        (setCell (gameBoard fun _ _ => 'q') 0 0 'O') 0 1 'X') 1 0 'O') 0 2 'X') 1 1 'X')
        1 2 'O') 2 1 'X') 2 2 'O') 2 0 'O') := by
      intro row col
      fin_cases row <;> fin_cases col <;> simp [setCell]
    have hl : hasLine (setCell (setCell (setCell (setCell (setCell (setCell (setCell (setCell
        (setCell (gameBoard fun _ _ => 'q') 0 0 'O') 0 1 'X') 1 0 'O') 0 2 'X') 1 1 'X')
        1 2 'O') 2 1 'X') 2 2 'O') 2 0 'O') := by
      rw [hasLine_iff]
      simp [lineComplete_iff, setCell]
    exact ⟨_, by simp [fillAll, fillBoard, subscript, setCell, gameBoard_blank], hf, hl,
      checkWin_draw_iff_full_no_line.2 _ true ⟨hf, hl⟩⟩

/-! ## Placement -/

/-- C3: for `row` and `col` in `[0,2]`, when `board[row][col]` is not blank,
`fillBoard` leaves the whole board as it was and sets `legalMove = false`. -/
theorem fillBoard_occupied_rejected (board : Board) (row col : Int) (letter : Char)
    (hrow : 0 ≤ row ∧ row ≤ 2) (hcol : 0 ≤ col ∧ col ≤ 2)
    (hocc : readCell board row col ≠ some ' ') :
    fillBoard board row col letter = some (board, false) := by
  obtain ⟨r, hr, -⟩ := subscript_of_range row hrow
  obtain ⟨c, hc, -⟩ := subscript_of_range col hcol
  rw [readCell_of_subscript board row col r c hr hc] at hocc
  rw [fillBoard_of_subscript board row col letter r c hr hc]
  have : board r c ≠ ' ' := fun h => hocc (by rw [h])
  rw [if_neg this]

/-- The scenario of C3: O is accepted at (1,1) on the empty board, then X at
(1,1) is rejected and the board stays as O left it. -/
theorem fillBoard_occupied_rejected_witness :
    fillBoard (gameBoard fun _ _ => 'q') 1 1 'O' =
      some (setCell (gameBoard fun _ _ => 'q') 1 1 'O', true) ∧
    fillBoard (setCell (gameBoard fun _ _ => 'q') 1 1 'O') 1 1 'X' =
      some (setCell (gameBoard fun _ _ => 'q') 1 1 'O', false) :=
  ⟨by simp [fillBoard, subscript, gameBoard_blank],
   fillBoard_occupied_rejected _ 1 1 'X' (by decide) (by decide)
     (by simp [readCell, subscript, setCell])⟩

/-- C4: for `row` and `col` in `[0,2]`, when `board[row][col]` is blank,
`fillBoard` sets `legalMove = true`, the cell `(row, col)` then holds `letter`
and the 8 other cells are as before; the call of `fillBoard` made by `main`
leaves `currentPlayer` as it was. -/
theorem fillBoard_blank_accepted (board : Board) (row col : Int) (letter : Char)
    (hrow : 0 ≤ row ∧ row ≤ 2) (hcol : 0 ≤ col ∧ col ≤ 2)
    (hblank : readCell board row col = some ' ') :
    (∃ after, fillBoard board row col letter = some (after, true) ∧
      readCell after row col = some letter ∧
      ∀ r c : Fin 3, (r.val : Int) ≠ row ∨ (c.val : Int) ≠ col → after r c = board r c) ∧
    (∀ (v v' : Vars) (evs : List Event), v.board = board →
      placeMark v row col = some (v', evs) → v'.currentPlayer = v.currentPlayer) := by
  obtain ⟨r, hr, hrv⟩ := subscript_of_range row hrow
  obtain ⟨c, hc, hcv⟩ := subscript_of_range col hcol
  rw [readCell_of_subscript board row col r c hr hc] at hblank
  have hb : board r c = ' ' := by simpa using hblank
  constructor
  · refine ⟨setCell board r c letter, ?_, ?_, ?_⟩
    · rw [fillBoard_of_subscript board row col letter r c hr hc, if_pos hb]
    · rw [readCell_of_subscript _ row col r c hr hc]
      simp [setCell]
    · intro r' c' hne
      have : ¬ (r' = r ∧ c' = c) := by
        rintro ⟨rfl, rfl⟩
        rcases hne with h | h
        · exact h hrv
        · exact h hcv
      simp [setCell, this]
  · intro v v' evs _ hp
    unfold placeMark at hp
    split_ifs at hp
    · split at hp
      · cases hp; rfl
      · cases hp
    · split at hp
      · cases hp; rfl
      · cases hp
    · cases hp; rfl

/-- C4 at a concrete call: X at (0,2) on the board that holds O at (1,1). -/
theorem fillBoard_blank_accepted_witness :
    (∃ after, fillBoard (setCell (gameBoard fun _ _ => 'q') 1 1 'O') 0 2 'X' = some (after, true) ∧
      readCell after 0 2 = some 'X' ∧
      ∀ r c : Fin 3, (r.val : Int) ≠ 0 ∨ (c.val : Int) ≠ 2 →
        after r c = setCell (gameBoard fun _ _ => 'q') 1 1 'O' r c) ∧
    (∀ (v v' : Vars) (evs : List Event), v.board = setCell (gameBoard fun _ _ => 'q') 1 1 'O' →
      placeMark v 0 2 = some (v', evs) → v'.currentPlayer = v.currentPlayer) :=
  fillBoard_blank_accepted (setCell (gameBoard fun _ _ => 'q') 1 1 'O') 0 2 'X'
    (by decide) (by decide) (by simp [readCell, subscript, setCell, gameBoard_blank])

theorem outOfBound_iff (row col : Int) :
    outOfBound row col = true ↔ (row < 0 ∨ 2 < row) ∨ (col < 0 ∨ 2 < col) := by
  simp [outOfBound, or_assoc]

theorem fitsInt_iff (i : Int) : fitsInt i = true ↔ -2147483648 ≤ i ∧ i ≤ 2147483647 := by
  simp [fitsInt]

theorem fits_pair (row col : Int) (hrow : -2147483648 ≤ row ∧ row ≤ 2147483647)
    (hcol : -2147483648 ≤ col ∧ col ≤ 2147483647) : (fitsInt row && fitsInt col) = true := by
  rw [Bool.and_eq_true]
  exact ⟨(fitsInt_iff row).2 hrow, (fitsInt_iff col).2 hcol⟩

theorem not_fits_pair (row col : Int)
    (h : (row < -2147483648 ∨ 2147483647 < row) ∨ (col < -2147483648 ∨ 2147483647 < col)) :
    ¬ (fitsInt row && fitsInt col) = true := by
  rw [Bool.and_eq_true, fitsInt_iff, fitsInt_iff]
  omega

/-- The value stored for a number outside the range of `int` is outside
`[0,2]`, so the test of lines 202 and 207 holds whatever the other variable. -/
theorem stored_out_of_bound (i : Int) (h : i < -2147483648 ∨ 2147483647 < i) :
    (stored i < 0 ∨ 2 < stored i) ∧ ∀ other, outOfBound (stored i) other = true ∧
      outOfBound other (stored i) = true := by
  have hs : stored i < 0 ∨ 2 < stored i := by
    unfold stored
    split_ifs <;> omega
  refine ⟨hs, fun other => ⟨?_, ?_⟩⟩
  · exact (outOfBound_iff _ _).2 (Or.inl hs)
  · exact (outOfBound_iff _ _).2 (Or.inr hs)

theorem getPosition_range (cur : Int) (input : Input) (row col : Int) (rest : Input)
    (h : getPosition cur input = Asked.pair row col rest) :
    (0 ≤ row ∧ row ≤ 2) ∧ (0 ≤ col ∧ col ≤ 2) ∧ rest.length < input.length := by
  induction input with
  | nil => simp [getPosition] at h
  | cons p tl ih =>
    obtain ⟨a, b⟩ := p
    unfold getPosition at h
    by_cases hf : (fitsInt a && fitsInt b) = true
    · rw [if_pos hf] at h
      by_cases hb : outOfBound a b = true
      · rw [if_pos hb] at h
        obtain ⟨h1, h2, h3⟩ := ih h
        exact ⟨h1, h2, by simp only [List.length_cons]; omega⟩
      · rw [if_neg hb] at h
        simp only [Asked.pair.injEq] at h
        obtain ⟨rfl, rfl, rfl⟩ := h
        rw [outOfBound_iff] at hb
        refine ⟨by omega, by omega, by simp⟩
    · rw [if_neg hf] at h
      cases h

/-- The pair read by `getPosition` holds two values of `int` and is out of
range: the do-while of `main` goes on as on the input without that pair, one
prompt apart. -/
theorem doWhile_skip (fuel : Nat) (v : Vars) (row col : Int) (rest : Input)
    (hf : (fitsInt row && fitsInt col) = true) (h : outOfBound row col = true) :
    (doWhile (fuel + 1) v ((row, col) :: rest)).vars = (doWhile (fuel + 1) v rest).vars ∧
    (doWhile (fuel + 1) v ((row, col) :: rest)).input = (doWhile (fuel + 1) v rest).input ∧
    (doWhile (fuel + 1) v ((row, col) :: rest)).status = (doWhile (fuel + 1) v rest).status ∧
    (doWhile (fuel + 1) v ((row, col) :: rest)).events.tail =
      (doWhile (fuel + 1) v rest).events.tail := by
  have hg : getPosition v.currentPlayer ((row, col) :: rest) =
      getPosition v.currentPlayer rest := by
    simp [getPosition, hf, h]
  unfold doWhile
  simp only [hg]
  cases getPosition v.currentPlayer rest with
  | waits => simp
  | fails tl => simp
  | pair a b tl =>
    simp only
    cases placeMark v a b with
    | none => simp
    | some q =>
      obtain ⟨v', evs⟩ := q
      simp only
      split_ifs <;> simp [Run.after]

/-- A number outside the range of `int` is typed: `getPosition` does not
return and the do-while of `main` stops there, its variables as they were. -/
theorem doWhile_fails (fuel : Nat) (v : Vars) (row col : Int) (rest : Input)
    (hf : ¬ (fitsInt row && fitsInt col) = true) :
    getPosition v.currentPlayer ((row, col) :: rest) = Asked.fails rest ∧
    getPositionPrompts v.currentPlayer ((row, col) :: rest) =
      [getPositionLetter v.currentPlayer] ∧
    (doWhile (fuel + 1) v ((row, col) :: rest)).status = Status.streamFailed ∧
    (doWhile (fuel + 1) v ((row, col) :: rest)).vars = v ∧
    (doWhile (fuel + 1) v ((row, col) :: rest)).events =
      [Event.solicit v.board v.currentPlayer [getPositionLetter v.currentPlayer]] := by
  have hg : getPosition v.currentPlayer ((row, col) :: rest) = Asked.fails rest := by
    simp [getPosition, hf]
  have hp : getPositionPrompts v.currentPlayer ((row, col) :: rest) =
      [getPositionLetter v.currentPlayer] := by
    simp [getPositionPrompts, hf]
  refine ⟨hg, hp, ?_, ?_, ?_⟩ <;> simp [doWhile, hg, hp]

/-- C5 as the code has it: `fillBoard` has no range test, so a subscript
outside `[0,2]` makes it access the array outside its bounds instead of
returning a rejection. -/
theorem fillBoard_out_of_range_undefined :
    fillBoard (gameBoard fun _ _ => 'q') 3 0 'X' = none ∧
    fillBoard (gameBoard fun _ _ => 'q') 0 (-1) 'O' = none ∧
    fillBoard (gameBoard fun _ _ => 'q') 3 0 'X' ≠ some (gameBoard fun _ _ => 'q', false) := by
  refine ⟨?_, ?_, ?_⟩ <;> simp [fillBoard, subscript]

/-- C5 amended: a pair of values of `int` with `row` or `col` outside `[0,2]`
is discarded by `getPosition`, which prompts the same player again; the
do-while of `main` goes on with the same variables (the board among them),
status and unread input as if the pair had not been typed, one prompt apart,
and the pairs `getPosition` hands over for `fillBoard` are in range.  A number
outside the range of `int` is stored as `INT_MIN` or `INT_MAX`, outside `[0,2]`
too, and makes the stream fail: `getPosition` then never returns, the board and
the other variables stay as they are and `fillBoard` is not reached. -/
theorem getPosition_discards_out_of_range (fuel : Nat) (v : Vars) (row col : Int) (rest : Input)
    (hrow : -2147483648 ≤ row ∧ row ≤ 2147483647)
    (hcol : -2147483648 ≤ col ∧ col ≤ 2147483647)
    (hout : (row < 0 ∨ 2 < row) ∨ (col < 0 ∨ 2 < col)) :
    getPosition v.currentPlayer ((row, col) :: rest) = getPosition v.currentPlayer rest ∧
    getPositionPrompts v.currentPlayer ((row, col) :: rest) =
      getPositionLetter v.currentPlayer :: getPositionPrompts v.currentPlayer rest ∧
    (doWhile (fuel + 1) v ((row, col) :: rest)).vars = (doWhile (fuel + 1) v rest).vars ∧
    (doWhile (fuel + 1) v ((row, col) :: rest)).input = (doWhile (fuel + 1) v rest).input ∧
    (doWhile (fuel + 1) v ((row, col) :: rest)).status = (doWhile (fuel + 1) v rest).status ∧
    (doWhile (fuel + 1) v ((row, col) :: rest)).events.tail =
      (doWhile (fuel + 1) v rest).events.tail ∧
    (∀ input r c tl, getPosition v.currentPlayer input = Asked.pair r c tl →
      (0 ≤ r ∧ r ≤ 2) ∧ (0 ≤ c ∧ c ≤ 2)) ∧
    (∀ big other : Int, big < -2147483648 ∨ 2147483647 < big →
      (stored big < 0 ∨ 2 < stored big) ∧
      getPosition v.currentPlayer ((big, other) :: rest) = Asked.fails rest ∧
      getPosition v.currentPlayer ((other, big) :: rest) = Asked.fails rest ∧
      (doWhile (fuel + 1) v ((big, other) :: rest)).status = Status.streamFailed ∧
      (doWhile (fuel + 1) v ((other, big) :: rest)).status = Status.streamFailed ∧
      (doWhile (fuel + 1) v ((big, other) :: rest)).vars = v ∧
      (doWhile (fuel + 1) v ((other, big) :: rest)).vars = v) := by
  have h : outOfBound row col = true := (outOfBound_iff row col).2 hout
  have hf := fits_pair row col hrow hcol
  obtain ⟨h1, h2, h3, h4⟩ := doWhile_skip fuel v row col rest hf h
  refine ⟨by simp [getPosition, hf, h], by simp [getPositionPrompts, hf, h], h1, h2, h3, h4,
    ?_, ?_⟩
  · intro input r c tl hg
    obtain ⟨hr, hc, -⟩ := getPosition_range _ _ r c tl hg
    exact ⟨hr, hc⟩
  · intro big other hbig
    obtain ⟨a1, -, a3, a4, -⟩ := doWhile_fails fuel v big other rest
      (not_fits_pair big other (Or.inl hbig))
    obtain ⟨b1, -, b3, b4, -⟩ := doWhile_fails fuel v other big rest
      (not_fits_pair other big (Or.inr hbig))
    exact ⟨(stored_out_of_bound big hbig).1, a1, b1, a3, b3, a4, b4⟩

/-- C5 amended, at the pair (3, 0) typed by player 0 before (1, 1): the pair
is skipped and O lands on (1, 1); had 2147483648 been typed instead of 3, the
do-while would stop with the stream failed. -/
theorem getPosition_discards_out_of_range_witness :
    getPosition 0 [(3, 0), (1, 1)] = Asked.pair 1 1 [] ∧
    (doWhile 2 ⟨gameBoard fun _ _ => 'q', 0, false, false, false⟩ [(3, 0), (1, 1)]).status =
      Status.done ∧
    (doWhile 2 ⟨gameBoard fun _ _ => 'q', 0, false, false, false⟩ [(3, 0), (1, 1)]).vars.board 1 1 =
      'O' ∧
    (doWhile 2 ⟨gameBoard fun _ _ => 'q', 0, false, false, false⟩
      [(2147483648, 0), (1, 1)]).status = Status.streamFailed := by
  have h := getPosition_discards_out_of_range 1 ⟨gameBoard fun _ _ => 'q', 0, false, false, false⟩
    3 0 [(1, 1)] (by decide) (by decide) (by decide)
  refine ⟨by rw [h.1]; rfl, ?_, ?_, (h.2.2.2.2.2.2.2 2147483648 0 (by decide)).2.2.2.1⟩
  · rw [h.2.2.2.2.1]
    simp [doWhile, getPosition, fitsInt, outOfBound, placeMark, fillBoard, subscript,
      gameBoard_blank]
  · rw [h.2.2.1]
    simp [doWhile, getPosition, fitsInt, outOfBound, placeMark, fillBoard, subscript,
      gameBoard_blank, setCell]

theorem countMarks_setCell (board : Board) (r c : Fin 3) (letter : Char)
    (hb : board r c = ' ') (hl : letter ≠ ' ') :
    countMarks (setCell board r c letter) = countMarks board + 1 := by
  fin_cases r <;> fin_cases c <;>
    simp_all [countMarks, allCells, setCell, List.countP_cons] <;> omega

theorem countMarks_gameBoard (board : Board) : countMarks (gameBoard board) = 0 := by
  simp [countMarks, allCells, gameBoard_blank]

theorem fillAll_count (moves : List (Int × Int × Char)) :
    ∀ board : Board,
    (∀ m ∈ moves,
      (0 ≤ m.1 ∧ m.1 ≤ 2) ∧ (0 ≤ m.2.1 ∧ m.2.1 ≤ 2) ∧ (m.2.2 = 'X' ∨ m.2.2 = 'O')) →
    ∃ after n, fillAll board moves = some (after, n) ∧
      countMarks after = countMarks board + n := by
  induction moves with
  | nil => intro board _; exact ⟨board, 0, rfl, rfl⟩
  | cons m tl ih =>
    intro board h
    obtain ⟨row, col, letter⟩ := m
    obtain ⟨hrow, hcol, hlet⟩ := h (row, col, letter) (List.mem_cons_self _ _)
    have htl := fun m hm => h m (List.mem_cons_of_mem _ hm)
    obtain ⟨r, hr, -⟩ := subscript_of_range row hrow
    obtain ⟨c, hc, -⟩ := subscript_of_range col hcol
    have hne : letter ≠ ' ' := by
      rcases hlet with h | h <;> (simp only at h; rw [h]; decide)
    unfold fillAll
    rw [fillBoard_of_subscript board row col letter r c hr hc]
    by_cases hb : board r c = ' '
    · obtain ⟨after, n, hf, hcnt⟩ := ih (setCell board r c letter) htl
      refine ⟨after, n + 1, ?_, ?_⟩
      · simp [hb, hf]
      · rw [hcnt, countMarks_setCell board r c letter hb hne]; omega
    · obtain ⟨after, n, hf, hcnt⟩ := ih board htl
      refine ⟨after, n, ?_, hcnt⟩
      simp [hb, hf]

/-- C8: for every sequence of calls of `fillBoard` on the board left by
`gameBoard`, with coordinates in `[0,2]` and letters 'X' or 'O', the number of
non-blank cells of the last board is the number of calls that left
`legalMove = true`. -/
theorem fillAll_marks_eq_accepted (board : Board) (moves : List (Int × Int × Char))
    (h : ∀ m ∈ moves,
      (0 ≤ m.1 ∧ m.1 ≤ 2) ∧ (0 ≤ m.2.1 ∧ m.2.1 ≤ 2) ∧ (m.2.2 = 'X' ∨ m.2.2 = 'O')) :
    ∃ after n, fillAll (gameBoard board) moves = some (after, n) ∧ countMarks after = n := by
  obtain ⟨after, n, hf, hcnt⟩ := fillAll_count moves (gameBoard board) h
  exact ⟨after, n, hf, by rw [hcnt, countMarks_gameBoard]; omega⟩

/-- C8 on three calls, the second of which is rejected: two marks, two accepted
calls. -/
theorem fillAll_marks_eq_accepted_witness :
    ∃ after, fillAll (gameBoard fun _ _ => 'q') [(1, 1, 'O'), (1, 1, 'X'), (0, 2, 'X')] =
      some (after, 2) ∧ countMarks after = 2 := by
  obtain ⟨after, n, hf, hcnt⟩ := fillAll_marks_eq_accepted (fun _ _ => 'q')
    [(1, 1, 'O'), (1, 1, 'X'), (0, 2, 'X')] (by decide)
  have hf2 : fillAll (gameBoard fun _ _ => 'q') [(1, 1, 'O'), (1, 1, 'X'), (0, 2, 'X')] =
      some (setCell (setCell (gameBoard fun _ _ => 'q') 1 1 'O') 0 2 'X', 2) := by
    simp [fillAll, fillBoard, subscript, setCell, gameBoard_blank]
  rw [hf2] at hf
  simp only [Option.some.injEq, Prod.mk.injEq] at hf
  obtain ⟨rfl, rfl⟩ := hf
  exact ⟨_, hf2, hcnt⟩

/-! ## Turn alternation -/

/-- C9: for `p` in `{0, 1}`, `changePlayer` yields an identifier in `{0, 1}`
different from `p`, and applied twice it yields `p` again. -/
theorem changePlayer_alternates (p : Int) (hp : p = 0 ∨ p = 1) :
    (changePlayer p = 0 ∨ changePlayer p = 1) ∧ changePlayer p ≠ p ∧
      changePlayer (changePlayer p) = p := by
  rcases hp with rfl | rfl <;> simp [changePlayer]

/-- C9 at the first mover: player 0 hands over to player 1 and gets the turn
back. -/
theorem changePlayer_alternates_witness :
    (changePlayer 0 = 0 ∨ changePlayer 0 = 1) ∧ changePlayer 0 ≠ 0 ∧
      changePlayer (changePlayer 0) = 0 :=
  changePlayer_alternates 0 (Or.inl rfl)

/-! ## The shape of a run of `main` -/

theorem getPositionPrompts_replicate (cur : Int) (input : Input) :
    ∃ k, getPositionPrompts cur input = List.replicate (k + 1) (getPositionLetter cur) := by
  induction input with
  | nil => exact ⟨0, rfl⟩
  | cons p tl ih =>
    obtain ⟨a, b⟩ := p
    obtain ⟨k, hk⟩ := ih
    unfold getPositionPrompts
    by_cases hf : (fitsInt a && fitsInt b) = true
    · rw [if_pos hf]
      by_cases hb : outOfBound a b = true
      · rw [if_pos hb, hk]
        exact ⟨k + 1, rfl⟩
      · rw [if_neg hb]
        exact ⟨0, rfl⟩
    · rw [if_neg hf]
      exact ⟨0, rfl⟩

theorem placeMark_of_subscript (v : Vars) (row col : Int) (r c : Fin 3)
    (hcur : v.currentPlayer = 0 ∨ v.currentPlayer = 1)
    (hr : subscript row = some r) (hc : subscript col = some c) :
    placeMark v row col =
      if v.board r c = ' ' then
        some ({ v with board := setCell v.board r c (getPositionLetter v.currentPlayer),
                       legalMove := true },
          [Event.fill v.board v.currentPlayer row col (getPositionLetter v.currentPlayer) true
            (setCell v.board r c (getPositionLetter v.currentPlayer))])
      else
        some ({ v with legalMove := false },
          [Event.fill v.board v.currentPlayer row col (getPositionLetter v.currentPlayer) false
            v.board]) := by
  unfold placeMark
  rcases hcur with h | h
  · simp only [h, if_true, fillBoard_of_subscript v.board row col _ r c hr hc, getPositionLetter]
    split_ifs <;> rfl
  · have h0 : v.currentPlayer ≠ 0 := by omega
    simp only [h, fillBoard_of_subscript v.board row col _ r c hr hc, getPositionLetter]
    split_ifs <;> rfl

theorem doWhile_trace (fuel : Nat) :
    ∀ (v : Vars) (input : Input), (v.currentPlayer = 0 ∨ v.currentPlayer = 1) →
      input.length < fuel →
      MoveTrace v.board v.currentPlayer (doWhile fuel v input).events
        (doWhile fuel v input).status (doWhile fuel v input).vars.board ∧
      (doWhile fuel v input).vars.currentPlayer = v.currentPlayer ∧
      (doWhile fuel v input).vars.isOver = v.isOver ∧
      (doWhile fuel v input).vars.isDraw = v.isDraw ∧
      ((doWhile fuel v input).status = Status.done →
        (doWhile fuel v input).input.length < input.length) := by
  induction fuel with
  | zero => intro v input _ h; omega
  | succ fuel ih =>
    intro v input hcur hlen
    obtain ⟨k, hk⟩ := getPositionPrompts_replicate v.currentPlayer input
    unfold doWhile
    simp only [hk]
    cases hg : getPosition v.currentPlayer input with
    | waits =>
      exact ⟨MoveTrace.waiting k _ (Or.inl rfl), rfl, rfl, rfl, by simp⟩
    | fails rest =>
      exact ⟨MoveTrace.waiting k _ (Or.inr rfl), rfl, rfl, rfl, by simp⟩
    | pair row col rest =>
      obtain ⟨hrow, hcol, hrest⟩ := getPosition_range _ _ _ _ _ hg
      obtain ⟨r, hr, -⟩ := subscript_of_range row hrow
      obtain ⟨c, hc, -⟩ := subscript_of_range col hcol
      simp only [placeMark_of_subscript v row col r c hcur hr hc]
      by_cases hb : v.board r c = ' '
      · simp only [if_pos hb, Bool.not_true, Bool.false_eq_true, if_false]
        exact ⟨MoveTrace.accepted k row col r c hr hc hb, trivial, trivial, trivial,
          fun _ => hrest⟩
      · simp only [if_neg hb, Bool.not_false, if_true]
        obtain ⟨h1, h2, h3, h4, h5⟩ := ih { v with legalMove := false } rest hcur (by omega)
        refine ⟨MoveTrace.rejected k row col r c hr hc hb _ _ _ h1, h2, h3, h4, ?_⟩
        intro hd
        have := h5 hd
        simp only [Run.after] at this ⊢
        omega

theorem not_done_of_stopped {status : Status}
    (h : status = Status.awaitingInput ∨ status = Status.streamFailed) :
    status ≠ Status.done := by
  rcases h with rfl | rfl <;> decide

theorem MoveTrace.status_cases {board : Board} {cur : Int} {evs : List Event} {status : Status}
    {last : Board} (h : MoveTrace board cur evs status last) :
    status = Status.done ∨
      ((status = Status.awaitingInput ∨ status = Status.streamFailed) ∧ last = board) := by
  induction h with
  | waiting k status hw => exact Or.inr ⟨hw, rfl⟩
  | accepted k row col r c hr hc hb => exact Or.inl rfl
  | rejected k row col r c hr hc hb rest status last _ ih => exact ih

theorem checkWin_false_cases (board : Board) (draw : Bool) :
    (checkWin board false draw = (true, false) ∧ hasLine board) ∨
    (checkWin board false draw = (true, true) ∧ ¬ hasLine board ∧ isFull board) ∨
    (checkWin board false draw = (false, draw) ∧ ¬ hasLine board ∧ ¬ isFull board) := by
  obtain ⟨hw, hd, hn⟩ := checkWin_cases board false draw
  by_cases hl : hasLine board
  · exact Or.inl ⟨hw hl, hl⟩
  · by_cases hf : isFull board
    · exact Or.inr (Or.inl ⟨hd hl hf, hl, hf⟩)
    · exact Or.inr (Or.inr ⟨hn hl hf, hl, hf⟩)

theorem changePlayer_range (cur : Int) : changePlayer cur = 0 ∨ changePlayer cur = 1 := by
  unfold changePlayer
  split_ifs
  · exact Or.inr rfl
  · exact Or.inl rfl

theorem mainLoop_trace (fuel : Nat) :
    ∀ (v : Vars) (input : Input), v.isOver = false →
      (v.currentPlayer = 0 ∨ v.currentPlayer = 1) → input.length < fuel →
      GameTrace v.board v.currentPlayer v.isDraw (mainLoop fuel v input).events
        (mainLoop fuel v input).status (mainLoop fuel v input).vars.board
        (mainLoop fuel v input).vars.currentPlayer (mainLoop fuel v input).vars.isOver
        (mainLoop fuel v input).vars.isDraw := by
  induction fuel with
  | zero => intro v input _ _ h; omega
  | succ fuel ih =>
    intro v input hv hcur hlen
    unfold mainLoop
    simp only [hv, Bool.false_eq_true, if_false]
    rcases checkWin_false_cases v.board v.isDraw with ⟨hc, -⟩ | ⟨hc, -⟩ | ⟨hc, -⟩
    · simp only [hc, if_true]
      exact GameTrace.over _ _ _ _ hcur hc
    · simp only [hc, if_true]
      exact GameTrace.over _ _ _ _ hcur hc
    · simp only [hc, Bool.false_eq_true, if_false]
      have hdw := doWhile_trace (fuel + 1)
        { v with isOver := false, isDraw := v.isDraw } input hcur hlen
      generalize doWhile (fuel + 1) _ input = dw at hdw ⊢
      obtain ⟨evs, w, inp, st⟩ := dw
      obtain ⟨h1, h2, h3, h4, h5⟩ := hdw
      simp only at h1 h2 h3 h4 h5 ⊢
      rw [← h4] at hc
      rw [← h2] at hcur h1
      rw [← h2, ← h4]
      rcases h1.status_cases with hst | ⟨hst, hlast⟩
      · subst hst
        have hlen' := h5 rfl
        have hrec := ih { w with currentPlayer := changePlayer w.currentPlayer } inp
          h3 (changePlayer_range _) (by omega)
        simp only [Run.after, List.append_assoc, List.cons_append, List.nil_append]
        exact GameTrace.move _ _ _ _ _ _ _ _ _ _ _ hcur hc h1 hrec
      · rcases hst with rfl | rfl
        · simp only [Run.after, List.append_assoc, List.cons_append, List.nil_append]
          rw [hlast] at h1
          rw [h3, hlast]
          exact GameTrace.waiting _ _ _ _ _ hcur hc (Or.inl rfl) h1
        · simp only [Run.after, List.append_assoc, List.cons_append, List.nil_append]
          rw [hlast] at h1
          rw [h3, hlast]
          exact GameTrace.waiting _ _ _ _ _ hcur hc (Or.inr rfl) h1

theorem main_trace (board : Board) (isDraw legalMove : Bool) (input : Input) :
    ∃ evs, GameTrace (gameBoard board) 0 isDraw evs
        (main board false isDraw legalMove input).status
        (main board false isDraw legalMove input).vars.board
        (main board false isDraw legalMove input).vars.currentPlayer
        (main board false isDraw legalMove input).vars.isOver
        (main board false isDraw legalMove input).vars.isDraw ∧
      (main board false isDraw legalMove input).events =
        evs ++
          if (main board false isDraw legalMove input).status = Status.done ∧
              (main board false isDraw legalMove input).vars.isDraw = false then
            [Event.winner (main board false isDraw legalMove input).vars.currentPlayer
              (winnerMessagePlayer (main board false isDraw legalMove input).vars.currentPlayer)]
          else [] := by
  have h := mainLoop_trace (input.length + 1) ⟨gameBoard board, 0, false, isDraw, legalMove⟩
    input rfl (Or.inl rfl) (by omega)
  simp only [main]
  generalize mainLoop (input.length + 1) _ input = r at h ⊢
  obtain ⟨evs, w, inp, st⟩ := r
  simp only at h ⊢
  refine ⟨evs, ?_, ?_⟩
  · cases st <;> cases hd : w.isDraw <;> simpa [Run.after, hd] using h
  · cases st <;> cases hd : w.isDraw <;> simp [Run.after, hd]

theorem acceptedMarks_append (xs ys : List Event) :
    acceptedMarks (xs ++ ys) = acceptedMarks xs ++ acceptedMarks ys := by
  induction xs with
  | nil => rfl
  | cons e tl ih =>
    cases e with
    | fill b cur row col letter legal after =>
      cases legal <;> simp [acceptedMarks, ih]
    | _ => simp [acceptedMarks, ih]

theorem MoveTrace.done_cases {board : Board} {cur : Int} {evs : List Event} {status : Status}
    {last : Board} (h : MoveTrace board cur evs status last) (hd : status = Status.done) :
    (∃ r c, board r c = ' ' ∧ last = setCell board r c (getPositionLetter cur)) ∧
      acceptedMarks evs = [getPositionLetter cur] := by
  induction h with
  | waiting k status hw => rcases hw with rfl | rfl <;> cases hd
  | accepted k row col r c hr hc hb => exact ⟨⟨r, c, hb, rfl⟩, by simp [acceptedMarks]⟩
  | rejected k row col r c hr hc hb rest status last _ ih =>
    obtain ⟨h1, h2⟩ := ih hd
    exact ⟨h1, by simpa [acceptedMarks] using h2⟩

/-- A line completed by writing one cell of a board without complete line
passes through that cell, so it holds the mark written. -/
theorem lineOf_setCell (board : Board) (r c : Fin 3) (letter m : Char)
    (l : Cell × Cell × Cell) (hl : l ∈ winningLines) (hno : ¬ hasLine board)
    (h : lineOf (setCell board r c letter) m l) : m = letter := by
  obtain ⟨p1, p2, p3⟩ := l
  obtain ⟨hm, h1, h2, h3⟩ := h
  simp only [setCell] at h1 h2 h3
  by_cases e1 : p1.1 = r ∧ p1.2 = c
  · rw [if_pos e1] at h1; exact h1.symm
  · by_cases e2 : p2.1 = r ∧ p2.2 = c
    · rw [if_pos e2] at h2; exact h2.symm
    · by_cases e3 : p3.1 = r ∧ p3.2 = c
      · rw [if_pos e3] at h3; exact h3.symm
      · rw [if_neg e1] at h1
        rw [if_neg e2] at h2
        rw [if_neg e3] at h3
        exact absurd ⟨(p1, p2, p3), hl, m, hm, h1, h2, h3⟩ hno

theorem winnerMessagePlayer_changePlayer (cur : Int) (hcur : cur = 0 ∨ cur = 1) :
    winnerMessagePlayer (changePlayer cur) = getPositionLetter cur := by
  rcases hcur with rfl | rfl <;> simp [winnerMessagePlayer, changePlayer, getPositionLetter]

theorem getLast?_cons_of_some {α : Type} (a x : α) (l : List α) (h : l.getLast? = some x) :
    (a :: l).getLast? = some x := by
  cases l with
  | nil => simp at h
  | cons b tl => rw [List.getLast?_cons_cons]; exact h

/-- A while loop of `main` that stops with `isDraw = false`: the board it
leaves has a complete line and, unless no mark was written, every complete
line holds the mark written last, which is the one `winnerMessage` names. -/
theorem GameTrace.win {board : Board} {cur : Int} {draw : Bool} {evs : List Event}
    {status : Status} {last : Board} {lastCur : Int} {o d : Bool}
    (h : GameTrace board cur draw evs status last lastCur o d)
    (hs : status = Status.done) (hd : d = false) :
    hasLine last ∧
      ((acceptedMarks evs = [] ∧ last = board ∧ lastCur = cur) ∨
       ((acceptedMarks evs).getLast? = some (winnerMessagePlayer lastCur) ∧
        ∀ l ∈ winningLines, ∀ m, lineOf last m l → m = winnerMessagePlayer lastCur)) := by
  induction h with
  | over board cur draw d hcur hcheck =>
    subst hd
    rcases checkWin_false_cases board draw with ⟨_, hl⟩ | ⟨hc, _⟩ | ⟨hc, _⟩
    · exact ⟨hl, Or.inl ⟨by simp [acceptedMarks], rfl, rfl⟩⟩
    · rw [hc] at hcheck; simp at hcheck
    · rw [hc] at hcheck; simp at hcheck
  | waiting board cur draw moves status hcur hcheck hw hmoves =>
    rcases hw with rfl | rfl <;> cases hs
  | move board cur draw moves after rest status last lastCur o d hcur hcheck hmoves hrest ih =>
    obtain ⟨hline, hrec⟩ := ih hs hd
    refine ⟨hline, Or.inr ?_⟩
    obtain ⟨⟨r, c, hb, hafter⟩, hacc⟩ := hmoves.done_cases rfl
    have hno : ¬ hasLine board := by
      rcases checkWin_false_cases board draw with ⟨hc, _⟩ | ⟨hc, _⟩ | ⟨_, hl, _⟩
      · rw [hc] at hcheck; simp at hcheck
      · rw [hc] at hcheck; simp at hcheck
      · exact hl
    have hmarks : acceptedMarks (Event.display board cur :: Event.check board false draw ::
        (moves ++ Event.change after cur (changePlayer cur) :: rest)) =
        getPositionLetter cur :: acceptedMarks rest := by
      simp [acceptedMarks, acceptedMarks_append, hacc]
    rw [hmarks]
    rcases hrec with ⟨hnil, hlast, hlc⟩ | ⟨hl1, hl2⟩
    · rw [hnil, hlc, winnerMessagePlayer_changePlayer cur hcur]
      refine ⟨rfl, ?_⟩
      intro l hl m hm
      rw [hlast, hafter] at hm
      exact lineOf_setCell board r c _ m l hl hno hm
    · exact ⟨getLast?_cons_of_some _ _ _ hl1, hl2⟩

theorem gameBoard_no_line (board : Board) : ¬ hasLine (gameBoard board) := by
  rw [hasLine_iff]
  simp [lineComplete_iff, gameBoard_blank]

/-! ## The winner message -/

/-- C6: when the game loop of `main`, started with `isOver = false` on the board
left by `gameBoard` with player 0 to move, ends with a win (`main` returns with
`isDraw = false`), the last call is `winnerMessage`, the mark it names is 'O' or
'X', the final board has a complete line, every complete line of the final
board holds the mark named, and that mark is the one written by the last
accepted call of `fillBoard`. -/
theorem main_winner_names_winning_mark (board : Board) (isDraw legalMove : Bool) (input : Input)
    (hdone : (main board false isDraw legalMove input).status = Status.done)
    (hwin : (main board false isDraw legalMove input).vars.isDraw = false) :
    (main board false isDraw legalMove input).events.getLast? =
      some (Event.winner (main board false isDraw legalMove input).vars.currentPlayer
        (winnerMessagePlayer (main board false isDraw legalMove input).vars.currentPlayer)) ∧
    (winnerMessagePlayer (main board false isDraw legalMove input).vars.currentPlayer = 'O' ∨
      winnerMessagePlayer (main board false isDraw legalMove input).vars.currentPlayer = 'X') ∧
    hasLine (main board false isDraw legalMove input).vars.board ∧
    (∀ l ∈ winningLines, ∀ m,
      lineOf (main board false isDraw legalMove input).vars.board m l →
        m = winnerMessagePlayer (main board false isDraw legalMove input).vars.currentPlayer) ∧
    (acceptedMarks (main board false isDraw legalMove input).events).getLast? =
      some (winnerMessagePlayer (main board false isDraw legalMove input).vars.currentPlayer) := by
  obtain ⟨evs, htrace, hevs⟩ := main_trace board isDraw legalMove input
  rw [if_pos ⟨hdone, hwin⟩] at hevs
  obtain ⟨hline, hrec⟩ := htrace.win hdone hwin
  have hmark : winnerMessagePlayer (main board false isDraw legalMove input).vars.currentPlayer
      = 'O' ∨ winnerMessagePlayer (main board false isDraw legalMove input).vars.currentPlayer
      = 'X' := by
    unfold winnerMessagePlayer
    split_ifs
    · exact Or.inl rfl
    · exact Or.inr rfl
  rcases hrec with ⟨_, hlast, _⟩ | ⟨hl1, hl2⟩
  · rw [hlast] at hline
    exact absurd hline (gameBoard_no_line board)
  · refine ⟨?_, hmark, hline, hl2, ?_⟩
    · rw [hevs]; simp
    · rw [hevs, acceptedMarks_append]
      simpa [acceptedMarks] using hl1

/-- C6 on the game O (0,0), X (1,0), O (0,1), X (1,1), O (0,2): `main` returns
after a win and the message names 'O', the mark of the top row. -/
theorem main_winner_names_winning_mark_witness :
    (main (fun _ _ => 'q') false true false [(0, 0), (1, 0), (0, 1), (1, 1), (0, 2)]).status =
      Status.done ∧
    (main (fun _ _ => 'q') false true false
      [(0, 0), (1, 0), (0, 1), (1, 1), (0, 2)]).vars.currentPlayer = 1 ∧
    (acceptedMarks (main (fun _ _ => 'q') false true false
      [(0, 0), (1, 0), (0, 1), (1, 1), (0, 2)]).events).getLast? = some 'O' := by
  have hs : (main (fun _ _ => 'q') false true false
      [(0, 0), (1, 0), (0, 1), (1, 1), (0, 2)]).status = Status.done := by decide
  have hd : (main (fun _ _ => 'q') false true false
      [(0, 0), (1, 0), (0, 1), (1, 1), (0, 2)]).vars.isDraw = false := by decide
  have hc : (main (fun _ _ => 'q') false true false
      [(0, 0), (1, 0), (0, 1), (1, 1), (0, 2)]).vars.currentPlayer = 1 := by decide
  have h := main_winner_names_winning_mark (fun _ _ => 'q') true false
    [(0, 0), (1, 0), (0, 1), (1, 1), (0, 2)] hs hd
  refine ⟨hs, hc, ?_⟩
  rw [h.2.2.2.2, hc]
  rfl

/-! ## No move after the game is over -/

theorem MoveTrace.move_events {board : Board} {cur : Int} {evs : List Event} {status : Status}
    {last : Board} (h : MoveTrace board cur evs status last) :
    ∀ e ∈ evs, e.placementBoard = some board ∧ (∀ b ∈ e.boards, b = board ∨ b = last) := by
  induction h with
  | waiting k status hw => simp [Event.placementBoard, Event.boards]
  | accepted k row col r c hr hc hb => simp [Event.placementBoard, Event.boards]
  | rejected k row col r c hr hc hb rest status last _ ih =>
    intro e he
    simp only [List.mem_cons] at he
    rcases he with rfl | rfl | he
    · simp [Event.placementBoard, Event.boards]
    · simp [Event.placementBoard, Event.boards]
    · exact ih e he

theorem MoveTrace.move_frozen {board : Board} {cur : Int} {evs : List Event} {status : Status}
    {last : Board} (h : MoveTrace board cur evs status last)
    (hno : ¬ (hasLine board ∨ isFull board)) : evs.Pairwise FrozenAfter := by
  induction h with
  | waiting k status hw => simp
  | accepted k row col r c hr hc hb =>
    simp only [List.pairwise_cons, List.mem_singleton, forall_eq, List.not_mem_nil,
      IsEmpty.forall_iff, implies_true, List.Pairwise.nil, and_true]
    intro b hb' ht
    simp only [Event.boards, List.mem_singleton] at hb'
    subst hb'
    exact absurd ht hno
  | rejected k row col r c hr hc hb rest status last _ ih =>
    have hvac : ∀ e : Event, (∀ b ∈ e.boards, b = board) → ∀ e2, FrozenAfter e e2 := by
      intro e he e2 b hb' ht
      rw [he b hb'] at ht
      exact absurd ht hno
    refine List.Pairwise.cons (fun e2 _ => hvac _ (by simp [Event.boards]) e2)
      (List.Pairwise.cons (fun e2 _ => hvac _ (by simp [Event.boards]) e2) ih)

/-- A while loop of `main` entered on a board with a complete line or without
blank cell makes one call of `checkWin` and stops. -/
theorem checkWin_not_ended {board : Board} {draw : Bool}
    (h : checkWin board false draw = (false, draw)) : ¬ (hasLine board ∨ isFull board) := by
  rcases checkWin_false_cases board draw with ⟨hc, _⟩ | ⟨hc, _⟩ | ⟨_, hl, hf⟩
  · rw [hc] at h; simp at h
  · rw [hc] at h; simp at h
  · rintro (ht | ht)
    · exact hl ht
    · exact hf ht

theorem checkWin_over_draw {board : Board} {draw d : Bool}
    (h : checkWin board false draw = (true, d)) :
    (hasLine board ∨ isFull board) ∧ (d = true ↔ ¬ hasLine board) := by
  rcases checkWin_false_cases board draw with ⟨hc, hl⟩ | ⟨hc, hl, hf⟩ | ⟨hc, _⟩
  · rw [hc] at h
    simp only [Prod.mk.injEq, true_and] at h
    subst h
    simp [hl]
  · rw [hc] at h
    simp only [Prod.mk.injEq, true_and] at h
    subst h
    simp [hl, hf]
  · rw [hc] at h; simp at h

/-- A while loop of `main` entered on a board with a complete line or without
blank cell makes one call of `checkWin` and stops. -/
theorem GameTrace.of_ended {board : Board} {cur : Int} {draw : Bool} {evs : List Event}
    {status : Status} {last : Board} {lastCur : Int} {o d : Bool}
    (h : GameTrace board cur draw evs status last lastCur o d)
    (ht : hasLine board ∨ isFull board) :
    evs = [Event.display board cur, Event.check board true d] ∧ status = Status.done ∧
      last = board ∧ lastCur = cur ∧ o = true ∧ (d = true ↔ ¬ hasLine board) := by
  induction h with
  | over board cur draw d hcur hcheck =>
    exact ⟨rfl, rfl, rfl, rfl, rfl, (checkWin_over_draw hcheck).2⟩
  | waiting board cur draw moves status hcur hcheck hw hmoves =>
    exact absurd ht (checkWin_not_ended hcheck)
  | move board cur draw moves after rest status last lastCur o d hcur hcheck hmoves hrest _ =>
    exact absurd ht (checkWin_not_ended hcheck)

theorem GameTrace.after_ended {board : Board} {cur : Int} {draw : Bool} {evs : List Event}
    {status : Status} {last : Board} {lastCur : Int} {o d : Bool}
    (h : GameTrace board cur draw evs status last lastCur o d)
    (ht : hasLine board ∨ isFull board) :
    ∀ e ∈ evs, e.placementBoard = none ∧ (∀ b' ∈ e.boards, b' = board) ∧
      (∀ b' o' d', e = Event.check b' o' d' → o' = true ∧ (d' = true ↔ ¬ hasLine board)) := by
  obtain ⟨hevs, -, -, -, -, hd⟩ := h.of_ended ht
  intro e he
  rw [hevs] at he
  simp only [List.mem_cons, List.mem_singleton, List.not_mem_nil, or_false] at he
  rcases he with rfl | rfl
  · simp [Event.placementBoard, Event.boards]
  · refine ⟨rfl, by simp [Event.boards], ?_⟩
    intro b' o' d' heq
    cases heq
    exact ⟨rfl, hd⟩

theorem GameTrace.placements {board : Board} {cur : Int} {draw : Bool} {evs : List Event}
    {status : Status} {last : Board} {lastCur : Int} {o d : Bool}
    (h : GameTrace board cur draw evs status last lastCur o d) :
    ∀ e ∈ evs, ∀ b, e.placementBoard = some b → ¬ (hasLine b ∨ isFull b) := by
  induction h with
  | over board cur draw d hcur hcheck =>
    intro e he b hb
    simp only [List.mem_cons, List.mem_singleton, List.not_mem_nil, or_false] at he
    rcases he with rfl | rfl <;> simp [Event.placementBoard] at hb
  | waiting board cur draw moves status hcur hcheck hw hmoves =>
    intro e he b hb
    simp only [List.mem_cons] at he
    rcases he with rfl | rfl | he
    · simp [Event.placementBoard] at hb
    · simp [Event.placementBoard] at hb
    · rw [(hmoves.move_events e he).1] at hb
      cases hb
      exact checkWin_not_ended hcheck
  | move board cur draw moves after rest status last lastCur o d hcur hcheck hmoves hrest ih =>
    intro e he b hb
    simp only [List.mem_cons, List.mem_append] at he
    rcases he with rfl | rfl | he | rfl | he
    · simp [Event.placementBoard] at hb
    · simp [Event.placementBoard] at hb
    · rw [(hmoves.move_events e he).1] at hb
      cases hb
      exact checkWin_not_ended hcheck
    · simp [Event.placementBoard] at hb
    · exact ih e he b hb

theorem GameTrace.frozen {board : Board} {cur : Int} {draw : Bool} {evs : List Event}
    {status : Status} {last : Board} {lastCur : Int} {o d : Bool}
    (h : GameTrace board cur draw evs status last lastCur o d) :
    evs.Pairwise FrozenAfter := by
  induction h with
  | over board cur draw d hcur hcheck =>
    refine List.Pairwise.cons ?_ (List.pairwise_singleton _ _)
    intro e2 he2 b hb ht
    simp only [List.mem_singleton] at he2
    simp only [Event.boards, List.mem_singleton] at hb
    subst he2 hb
    refine ⟨rfl, by simp [Event.boards], ?_⟩
    intro b' o' d' heq
    cases heq
    exact ⟨rfl, (checkWin_over_draw hcheck).2⟩
  | waiting board cur draw moves status hcur hcheck hw hmoves =>
    have hno := checkWin_not_ended hcheck
    have hvac : ∀ e : Event, (∀ b ∈ e.boards, b = board) → ∀ e2, FrozenAfter e e2 := by
      intro e he e2 b hb' ht
      rw [he b hb'] at ht
      exact absurd ht hno
    exact List.Pairwise.cons (fun e2 _ => hvac _ (by simp [Event.boards]) e2)
      (List.Pairwise.cons (fun e2 _ => hvac _ (by simp [Event.boards]) e2) (hmoves.move_frozen hno))
  | move board cur draw moves after rest status last lastCur o d hcur hcheck hmoves hrest ih =>
    have hno := checkWin_not_ended hcheck
    have hvac : ∀ e : Event, (∀ b ∈ e.boards, b = board) → ∀ e2, FrozenAfter e e2 := by
      intro e he e2 b hb' ht
      rw [he b hb'] at ht
      exact absurd ht hno
    have hchange : ∀ y ∈ Event.change after cur (changePlayer cur) :: rest,
        (hasLine after ∨ isFull after) →
        y.placementBoard = none ∧ (∀ b' ∈ y.boards, b' = after) ∧
        (∀ b' o' d', y = Event.check b' o' d' → o' = true ∧ (d' = true ↔ ¬ hasLine after)) := by
      intro y hy ht
      simp only [List.mem_cons] at hy
      rcases hy with rfl | hy
      · refine ⟨rfl, by simp [Event.boards], ?_⟩
        intro b' o' d' heq
        cases heq
      · exact hrest.after_ended ht y hy
    refine List.Pairwise.cons (fun e2 _ => hvac _ (by simp [Event.boards]) e2)
      (List.Pairwise.cons (fun e2 _ => hvac _ (by simp [Event.boards]) e2) ?_)
    rw [List.pairwise_append]
    refine ⟨hmoves.move_frozen hno, List.Pairwise.cons ?_ ih, ?_⟩
    · intro y hy b hb ht
      simp only [Event.boards, List.mem_singleton] at hb
      subst hb
      exact hchange y (List.mem_cons_of_mem _ hy) ht
    · intro x hx y hy b hb ht
      rcases (hmoves.move_events x hx).2 b hb with rfl | rfl
      · exact absurd ht hno
      · exact hchange y hy ht

theorem GameTrace.final {board : Board} {cur : Int} {draw : Bool} {evs : List Event}
    {status : Status} {last : Board} {lastCur : Int} {o d : Bool}
    (h : GameTrace board cur draw evs status last lastCur o d) :
    ∀ e ∈ evs, ∀ b ∈ e.boards, (hasLine b ∨ isFull b) →
      status = Status.done ∧ last = b ∧ o = true ∧ (d = true ↔ ¬ hasLine b) := by
  induction h with
  | over board cur draw d hcur hcheck =>
    intro e he b hb _
    have : b = board := by
      simp only [List.mem_cons, List.mem_singleton, List.not_mem_nil, or_false] at he
      rcases he with rfl | rfl <;> simpa [Event.boards] using hb
    subst this
    exact ⟨rfl, rfl, rfl, (checkWin_over_draw hcheck).2⟩
  | waiting board cur draw moves status hcur hcheck hw hmoves =>
    intro e he b hb ht
    have : b = board := by
      simp only [List.mem_cons] at he
      rcases he with rfl | rfl | he
      · simpa [Event.boards] using hb
      · simpa [Event.boards] using hb
      · rcases (hmoves.move_events e he).2 b hb with h | h <;> exact h
    subst this
    exact absurd ht (checkWin_not_ended hcheck)
  | move board cur draw moves after rest status last lastCur o d hcur hcheck hmoves hrest ih =>
    intro e he b hb ht
    have hno := checkWin_not_ended hcheck
    have hafter : hasLine after ∨ isFull after →
        status = Status.done ∧ last = after ∧ o = true ∧ (d = true ↔ ¬ hasLine after) := by
      intro ht'
      obtain ⟨-, h2, h3, -, h5, h6⟩ := hrest.of_ended ht'
      exact ⟨h2, h3, h5, h6⟩
    simp only [List.mem_cons, List.mem_append] at he
    rcases he with rfl | rfl | he | rfl | he
    · have : b = board := by simpa [Event.boards] using hb
      subst this
      exact absurd ht hno
    · have : b = board := by simpa [Event.boards] using hb
      subst this
      exact absurd ht hno
    · rcases (hmoves.move_events e he).2 b hb with rfl | rfl
      · exact absurd ht hno
      · exact hafter ht
    · have : b = after := by simpa [Event.boards] using hb
      subst this
      exact hafter ht
    · exact ih e he b hb ht

theorem not_isFull_iff (board : Board) : ¬ isFull board ↔ ∃ row col, board row col = ' ' := by
  simp [isFull]

/-- C7: in every run of `main` started with `isOver = false`, every board on
which a placement is solicited or applied has no complete line and has a blank
cell; once an event is made on or leaves a board with a complete line or
without blank cell, no later event solicits or applies a placement, every later
event is on that same board and every later `checkWin` reports the same
outcome; `main` then returns with that board, `isOver = true`, and `isDraw`
set exactly when the board has no complete line. -/
theorem main_no_move_after_game_over (board : Board) (isDraw legalMove : Bool) (input : Input) :
    (∀ e ∈ (main board false isDraw legalMove input).events, ∀ b,
      e.placementBoard = some b → ¬ hasLine b ∧ ∃ row col, b row col = ' ') ∧
    (main board false isDraw legalMove input).events.Pairwise FrozenAfter ∧
    (∀ e ∈ (main board false isDraw legalMove input).events, ∀ b ∈ e.boards,
      (hasLine b ∨ isFull b) →
        (main board false isDraw legalMove input).status = Status.done ∧
        (main board false isDraw legalMove input).vars.board = b ∧
        (main board false isDraw legalMove input).vars.isOver = true ∧
        ((main board false isDraw legalMove input).vars.isDraw = true ↔ ¬ hasLine b)) := by
  obtain ⟨evs, htrace, hevs⟩ := main_trace board isDraw legalMove input
  rw [hevs]
  have htail : ∀ e ∈ (if (main board false isDraw legalMove input).status = Status.done ∧
      (main board false isDraw legalMove input).vars.isDraw = false then
        [Event.winner (main board false isDraw legalMove input).vars.currentPlayer
          (winnerMessagePlayer (main board false isDraw legalMove input).vars.currentPlayer)]
      else []),
      e.placementBoard = none ∧ e.boards = [] ∧ ∀ b o d, e ≠ Event.check b o d := by
    intro e he
    split_ifs at he
    · simp only [List.mem_singleton] at he
      subst he
      exact ⟨rfl, rfl, fun _ _ _ h => by cases h⟩
    · simp at he
  refine ⟨?_, ?_, ?_⟩
  · intro e he b hb
    rcases List.mem_append.1 he with he | he
    · have := htrace.placements e he b hb
      rw [not_or, not_isFull_iff] at this
      exact this
    · rw [(htail e he).1] at hb
      cases hb
  · rw [List.pairwise_append]
    refine ⟨htrace.frozen, ?_, ?_⟩
    · split_ifs <;> simp
    · intro x _ y hy b _ _
      obtain ⟨h1, h2, h3⟩ := htail y hy
      refine ⟨h1, by simp [h2], ?_⟩
      intro b' o d heq
      exact absurd heq (h3 b' o d)
  · intro e he b hb ht
    rcases List.mem_append.1 he with he | he
    · exact htrace.final e he b hb ht
    · rw [(htail e he).2.1] at hb
      simp at hb

/-- C7 on the game O (0,0), X (1,0), O (0,1), X (1,1), O (0,2): the last call
of `checkWin` is made on a board whose top row is held by O, and `main` returns
with that board, `isOver = true` and `isDraw = false`. -/
theorem main_no_move_after_game_over_witness :
    (main (fun _ _ => 'q') false true false [(0, 0), (1, 0), (0, 1), (1, 1), (0, 2)]).status =
      Status.done ∧
    (main (fun _ _ => 'q') false true false
      [(0, 0), (1, 0), (0, 1), (1, 1), (0, 2)]).vars.board =
      (main (fun _ _ => 'q') false true false
        [(0, 0), (1, 0), (0, 1), (1, 1), (0, 2)]).vars.board ∧
    (main (fun _ _ => 'q') false true false
      [(0, 0), (1, 0), (0, 1), (1, 1), (0, 2)]).vars.isOver = true ∧
    ((main (fun _ _ => 'q') false true false
      [(0, 0), (1, 0), (0, 1), (1, 1), (0, 2)]).vars.isDraw = true ↔
      ¬ hasLine (main (fun _ _ => 'q') false true false
        [(0, 0), (1, 0), (0, 1), (1, 1), (0, 2)]).vars.board) := by
  have hev : (main (fun _ _ => 'q') false true false
      [(0, 0), (1, 0), (0, 1), (1, 1), (0, 2)]).events =
      (main (fun _ _ => 'q') false true false
        [(0, 0), (1, 0), (0, 1), (1, 1), (0, 2)]).events.take 26 ++
      Event.check (main (fun _ _ => 'q') false true false
        [(0, 0), (1, 0), (0, 1), (1, 1), (0, 2)]).vars.board true false ::
      (main (fun _ _ => 'q') false true false
        [(0, 0), (1, 0), (0, 1), (1, 1), (0, 2)]).events.drop 27 := rfl
  have hmem : Event.check (main (fun _ _ => 'q') false true false
      [(0, 0), (1, 0), (0, 1), (1, 1), (0, 2)]).vars.board true false ∈
      (main (fun _ _ => 'q') false true false
        [(0, 0), (1, 0), (0, 1), (1, 1), (0, 2)]).events := by
    rw [hev]
    exact List.mem_append_right _ (List.mem_cons_self _ _)
  have hline : hasLine (main (fun _ _ => 'q') false true false
      [(0, 0), (1, 0), (0, 1), (1, 1), (0, 2)]).vars.board :=
    ⟨((0, 0), (0, 1), (0, 2)), by simp [winningLines], 'O', by decide, rfl, rfl, rfl⟩
  exact (main_no_move_after_game_over (fun _ _ => 'q') true false
    [(0, 0), (1, 0), (0, 1), (1, 1), (0, 2)]).2.2 _ hmem _ (by simp [Event.boards])
    (Or.inl hline)

/-! ## A rejected move costs nothing -/

theorem askedAgain_of_not_rejected {e1 : Event} (h : ¬ e1.IsRejected) (e2 : Event) :
    AskedAgain e1 e2 := by
  intro b cur row col letter after he
  exact absurd ⟨b, cur, row, col, letter, after, he⟩ h

theorem not_rejected_solicit (b : Board) (cur : Int) (ps : List Char) :
    ¬ (Event.solicit b cur ps).IsRejected := by
  rintro ⟨_, _, _, _, _, _, h⟩; cases h

theorem not_rejected_display (b : Board) (cur : Int) : ¬ (Event.display b cur).IsRejected := by
  rintro ⟨_, _, _, _, _, _, h⟩; cases h

theorem not_rejected_check (b : Board) (o d : Bool) : ¬ (Event.check b o d).IsRejected := by
  rintro ⟨_, _, _, _, _, _, h⟩; cases h

theorem not_rejected_change (b : Board) (cur next : Int) :
    ¬ (Event.change b cur next).IsRejected := by
  rintro ⟨_, _, _, _, _, _, h⟩; cases h

theorem not_rejected_winner (cur : Int) (m : Char) : ¬ (Event.winner cur m).IsRejected := by
  rintro ⟨_, _, _, _, _, _, h⟩; cases h

theorem not_rejected_accepted (b : Board) (cur row col : Int) (letter : Char) (after : Board) :
    ¬ (Event.fill b cur row col letter true after).IsRejected := by
  rintro ⟨_, _, _, _, _, _, h⟩; cases h

theorem MoveTrace.move_head {board : Board} {cur : Int} {evs : List Event} {status : Status}
    {last : Board} (h : MoveTrace board cur evs status last) :
    ∃ k tl, evs = Event.solicit board cur (List.replicate (k + 1) (getPositionLetter cur)) :: tl := by
  cases h with
  | waiting k status hw => exact ⟨k, _, rfl⟩
  | accepted k row col r c hr hc hb => exact ⟨k, _, rfl⟩
  | rejected k row col r c hr hc hb rest h => exact ⟨k, _, rfl⟩

theorem MoveTrace.move_askedAgain {board : Board} {cur : Int} {evs : List Event} {status : Status}
    {last : Board} (h : MoveTrace board cur evs status last) :
    evs.Chain' AskedAgain ∧ ∀ x ∈ evs.getLast?, ¬ x.IsRejected := by
  induction h with
  | waiting k status hw =>
    refine ⟨List.chain'_singleton _, ?_⟩
    intro x hx
    simp only [List.getLast?_singleton, Option.mem_def, Option.some.injEq] at hx
    subst hx
    exact not_rejected_solicit _ _ _
  | accepted k row col r c hr hc hb =>
    refine ⟨List.chain'_cons.2 ⟨askedAgain_of_not_rejected (not_rejected_solicit _ _ _) _,
      List.chain'_singleton _⟩, ?_⟩
    intro x hx
    simp only [List.getLast?_cons_cons, List.getLast?_singleton, Option.mem_def,
      Option.some.injEq] at hx
    subst hx
    exact not_rejected_accepted _ _ _ _ _ _
  | rejected k row col r c hr hc hb rest status last hrest ih =>
    obtain ⟨k', tl, htl⟩ := hrest.move_head
    obtain ⟨ih1, ih2⟩ := ih
    subst htl
    refine ⟨List.chain'_cons.2 ⟨askedAgain_of_not_rejected (not_rejected_solicit _ _ _) _,
      List.chain'_cons.2 ⟨?_, ih1⟩⟩, ?_⟩
    · intro b cur' row' col' letter after he
      cases he
      exact ⟨rfl, k', rfl⟩
    · intro x hx
      rw [List.getLast?_cons_cons, List.getLast?_cons_cons] at hx
      exact ih2 x hx

theorem GameTrace.head {board : Board} {cur : Int} {draw : Bool} {evs : List Event}
    {status : Status} {last : Board} {lastCur : Int} {o d : Bool}
    (h : GameTrace board cur draw evs status last lastCur o d) :
    ∃ tl, evs = Event.display board cur :: tl := by
  cases h <;> exact ⟨_, rfl⟩

theorem GameTrace.askedAgain {board : Board} {cur : Int} {draw : Bool} {evs : List Event}
    {status : Status} {last : Board} {lastCur : Int} {o d : Bool}
    (h : GameTrace board cur draw evs status last lastCur o d) :
    evs.Chain' AskedAgain ∧ ∀ x ∈ evs.getLast?, ¬ x.IsRejected := by
  induction h with
  | over board cur draw d hcur hcheck =>
    refine ⟨List.chain'_cons.2 ⟨askedAgain_of_not_rejected (not_rejected_display _ _) _,
      List.chain'_singleton _⟩, ?_⟩
    intro x hx
    simp only [List.getLast?_cons_cons, List.getLast?_singleton, Option.mem_def,
      Option.some.injEq] at hx
    subst hx
    exact not_rejected_check _ _ _
  | waiting board cur draw moves status hcur hcheck hw hmoves =>
    obtain ⟨k, tl, htl⟩ := hmoves.move_head
    obtain ⟨h1, h2⟩ := hmoves.move_askedAgain
    subst htl
    refine ⟨List.chain'_cons.2 ⟨askedAgain_of_not_rejected (not_rejected_display _ _) _,
      List.chain'_cons.2 ⟨askedAgain_of_not_rejected (not_rejected_check _ _ _) _, h1⟩⟩, ?_⟩
    intro x hx
    rw [List.getLast?_cons_cons, List.getLast?_cons_cons] at hx
    exact h2 x hx
  | move board cur draw moves after rest status last lastCur o d hcur hcheck hmoves hrest ih =>
    obtain ⟨k, tl, htl⟩ := hmoves.move_head
    obtain ⟨h1, h2⟩ := hmoves.move_askedAgain
    obtain ⟨rtl, hrtl⟩ := hrest.head
    obtain ⟨ih1, ih2⟩ := ih
    have hne : Event.change after cur (changePlayer cur) :: rest ≠ [] := by simp
    have hchain : (moves ++ Event.change after cur (changePlayer cur) :: rest).Chain'
        AskedAgain := by
      rw [List.chain'_append]
      refine ⟨h1, ?_, fun x hx y _ => askedAgain_of_not_rejected (h2 x hx) y⟩
      rw [hrtl] at ih1 ⊢
      exact List.chain'_cons.2 ⟨askedAgain_of_not_rejected (not_rejected_change _ _ _) _, ih1⟩
    have hlast : ∀ x ∈ (moves ++ Event.change after cur (changePlayer cur) :: rest).getLast?,
        ¬ x.IsRejected := by
      intro x hx
      rw [List.getLast?_append_of_ne_nil _ hne, hrtl, List.getLast?_cons_cons, ← hrtl] at hx
      exact ih2 x hx
    subst htl
    refine ⟨List.chain'_cons.2 ⟨askedAgain_of_not_rejected (not_rejected_display _ _) _,
      List.chain'_cons.2 ⟨askedAgain_of_not_rejected (not_rejected_check _ _ _) _, hchain⟩⟩, ?_⟩
    intro x hx
    rw [List.cons_append] at hx
    rw [List.getLast?_cons_cons, List.getLast?_cons_cons] at hx
    exact hlast x (by rw [List.cons_append]; exact hx)

theorem MoveTrace.move_prompts {board : Board} {cur : Int} {evs : List Event} {status : Status}
    {last : Board} (h : MoveTrace board cur evs status last) :
    ∀ b c ps, Event.solicit b c ps ∈ evs →
      ∃ k, ps = List.replicate (k + 1) (getPositionLetter c) := by
  induction h with
  | waiting k status hw =>
    intro b c ps he
    simp only [List.mem_singleton, Event.solicit.injEq] at he
    obtain ⟨-, rfl, rfl⟩ := he
    exact ⟨k, rfl⟩
  | accepted k row col r c hr hc hb =>
    intro b c' ps he
    simp only [List.mem_cons, Event.solicit.injEq, List.mem_singleton, reduceCtorEq,
      List.not_mem_nil, or_false] at he
    obtain ⟨-, rfl, rfl⟩ := he
    exact ⟨k, rfl⟩
  | rejected k row col r c hr hc hb rest status last _ ih =>
    intro b c' ps he
    simp only [List.mem_cons, Event.solicit.injEq, reduceCtorEq, false_or] at he
    rcases he with ⟨-, rfl, rfl⟩ | he
    · exact ⟨k, rfl⟩
    · exact ih b c' ps he

theorem GameTrace.prompts {board : Board} {cur : Int} {draw : Bool} {evs : List Event}
    {status : Status} {last : Board} {lastCur : Int} {o d : Bool}
    (h : GameTrace board cur draw evs status last lastCur o d) :
    ∀ b c ps, Event.solicit b c ps ∈ evs →
      ∃ k, ps = List.replicate (k + 1) (getPositionLetter c) := by
  induction h with
  | over board cur draw d hcur hcheck =>
    intro b c ps he
    simp at he
  | waiting board cur draw moves status hcur hcheck hw hmoves =>
    intro b c ps he
    simp only [List.mem_cons, reduceCtorEq, false_or] at he
    exact hmoves.move_prompts b c ps he
  | move board cur draw moves after rest status last lastCur o d hcur hcheck hmoves hrest ih =>
    intro b c ps he
    simp only [List.mem_cons, reduceCtorEq, false_or, List.mem_append] at he
    rcases he with he | he
    · exact hmoves.move_prompts b c ps he
    · exact ih b c ps he

/-- C10: in every run of `main` started with `isOver = false`, a call of
`fillBoard` that is rejected because the cell is occupied leaves the board as it
was and is followed at once by a call of `getPosition` on the same board for the
same player; all prompts of one call of `getPosition` name the mark of that one
player; a pair of values of `int` out of range is discarded by `getPosition`
with one more prompt for the same player, after which the do-while goes on with
the same variables, unread input and status as without that pair; and when a
number outside the range of `int` is typed, which `std::cin` stores as a value
out of range and answers by a failed stream, the variables (the board and
`currentPlayer` among them) stay as they are and the one call of `getPosition`
prompts the same player without end. -/
theorem main_rejected_move_costs_nothing (board : Board) (isDraw legalMove : Bool)
    (input : Input) :
    (∀ pre post b cur row col letter after,
      (main board false isDraw legalMove input).events =
        pre ++ Event.fill b cur row col letter false after :: post →
      after = b ∧ ∃ k tl,
        post = Event.solicit b cur (List.replicate (k + 1) (getPositionLetter cur)) :: tl) ∧
    (∀ b cur ps, Event.solicit b cur ps ∈ (main board false isDraw legalMove input).events →
      ∃ k, ps = List.replicate (k + 1) (getPositionLetter cur)) ∧
    (∀ (fuel : Nat) (v : Vars) (row col : Int) (rest : Input),
      (-2147483648 ≤ row ∧ row ≤ 2147483647) → (-2147483648 ≤ col ∧ col ≤ 2147483647) →
      (row < 0 ∨ 2 < row) ∨ (col < 0 ∨ 2 < col) →
      getPosition v.currentPlayer ((row, col) :: rest) = getPosition v.currentPlayer rest ∧
      getPositionPrompts v.currentPlayer ((row, col) :: rest) =
        getPositionLetter v.currentPlayer :: getPositionPrompts v.currentPlayer rest ∧
      (doWhile (fuel + 1) v ((row, col) :: rest)).vars = (doWhile (fuel + 1) v rest).vars ∧
      (doWhile (fuel + 1) v ((row, col) :: rest)).input = (doWhile (fuel + 1) v rest).input ∧
      (doWhile (fuel + 1) v ((row, col) :: rest)).status =
        (doWhile (fuel + 1) v rest).status) ∧
    (∀ (fuel : Nat) (v : Vars) (row col : Int) (rest : Input),
      (row < -2147483648 ∨ 2147483647 < row) ∨ (col < -2147483648 ∨ 2147483647 < col) →
      ((stored row < 0 ∨ 2 < stored row) ∨ (stored col < 0 ∨ 2 < stored col)) ∧
      (doWhile (fuel + 1) v ((row, col) :: rest)).vars = v ∧
      (doWhile (fuel + 1) v ((row, col) :: rest)).status = Status.streamFailed ∧
      (doWhile (fuel + 1) v ((row, col) :: rest)).events =
        [Event.solicit v.board v.currentPlayer [getPositionLetter v.currentPlayer]]) := by
  obtain ⟨evs, htrace, hevs⟩ := main_trace board isDraw legalMove input
  obtain ⟨hchain, hlast⟩ := htrace.askedAgain
  have hall : (main board false isDraw legalMove input).events.Chain' AskedAgain ∧
      ∀ x ∈ (main board false isDraw legalMove input).events.getLast?, ¬ x.IsRejected := by
    rw [hevs]
    split_ifs
    · refine ⟨List.chain'_append.2 ⟨hchain, List.chain'_singleton _,
        fun x hx y _ => askedAgain_of_not_rejected (hlast x hx) y⟩, ?_⟩
      intro x hx
      rw [List.getLast?_concat] at hx
      simp only [Option.mem_def, Option.some.injEq] at hx
      subst hx
      exact not_rejected_winner _ _
    · rw [List.append_nil]
      exact ⟨hchain, hlast⟩
  refine ⟨?_, ?_, ?_, ?_⟩
  · intro pre post b cur row col letter after hsplit
    obtain ⟨hc, hl⟩ := hall
    rw [hsplit] at hc hl
    cases post with
    | nil =>
      exact absurd ⟨b, cur, row, col, letter, after, rfl⟩
        (hl _ (by rw [List.getLast?_concat]; rfl))
    | cons y tl =>
      obtain ⟨h1, k, h2⟩ := (List.chain'_cons.1 (List.chain'_split.1 hc).2).1 b cur row col letter
        after rfl
      exact ⟨h1, k, tl, by rw [h2]⟩
  · intro b cur ps he
    rw [hevs] at he
    rcases List.mem_append.1 he with he | he
    · exact htrace.prompts b cur ps he
    · split_ifs at he <;> simp at he
  · intro fuel v row col rest hrow hcol hout
    have h : outOfBound row col = true := (outOfBound_iff row col).2 hout
    have hf := fits_pair row col hrow hcol
    obtain ⟨h1, h2, h3, -⟩ := doWhile_skip fuel v row col rest hf h
    exact ⟨by simp [getPosition, hf, h], by simp [getPositionPrompts, hf, h], h1, h2, h3⟩
  · intro fuel v row col rest hbig
    obtain ⟨-, -, h3, h4, h5⟩ := doWhile_fails fuel v row col rest (not_fits_pair row col hbig)
    refine ⟨?_, h4, h3, h5⟩
    rcases hbig with hb | hb
    · exact Or.inl (stored_out_of_bound row hb).1
    · exact Or.inr (stored_out_of_bound col hb).1

/-- C10 on the input (1,1), (1,1), (5,0), (0,0): the ninth event is the call of
`fillBoard` for X on the cell O holds; it is rejected, and the events that
follow start with a call of `getPosition` for player 1 on the same board. -/
theorem main_rejected_move_costs_nothing_witness :
    setCell (gameBoard fun _ _ => 'q') 1 1 'O' = setCell (gameBoard fun _ _ => 'q') 1 1 'O' ∧
    ∃ k tl,
      (main (fun _ _ => 'q') false false false [(1, 1), (1, 1), (5, 0), (0, 0)]).events.drop 9 =
        Event.solicit (setCell (gameBoard fun _ _ => 'q') 1 1 'O') 1
          (List.replicate (k + 1) (getPositionLetter 1)) :: tl :=
  (main_rejected_move_costs_nothing (fun _ _ => 'q') false false
    [(1, 1), (1, 1), (5, 0), (0, 0)]).1
    [Event.display (gameBoard fun _ _ => 'q') 0,
      Event.check (gameBoard fun _ _ => 'q') false false,
      Event.solicit (gameBoard fun _ _ => 'q') 0 ['O'],
      Event.fill (gameBoard fun _ _ => 'q') 0 1 1 'O' true
        (setCell (gameBoard fun _ _ => 'q') 1 1 'O'),
      Event.change (setCell (gameBoard fun _ _ => 'q') 1 1 'O') 0 1,
      Event.display (setCell (gameBoard fun _ _ => 'q') 1 1 'O') 1,
      Event.check (setCell (gameBoard fun _ _ => 'q') 1 1 'O') false false,
      Event.solicit (setCell (gameBoard fun _ _ => 'q') 1 1 'O') 1 ['X']]
    ((main (fun _ _ => 'q') false false false [(1, 1), (1, 1), (5, 0), (0, 0)]).events.drop 9)
    (setCell (gameBoard fun _ _ => 'q') 1 1 'O') 1 1 1 'X'
    (setCell (gameBoard fun _ _ => 'q') 1 1 'O') rfl

/-! ## The encoding of the players in `winnerMessage` -/

/-- C12 evaluated on the code: `winnerMessage` names 'X' for `curPlayer = 0`
and 'O' for `curPlayer = 1`, the reverse of the encoding its doc comment gives
(0 for 'O', 1 for 'X') and of the one `getPosition` applies. -/
theorem winnerMessage_reverses_documented_encoding :
    winnerMessagePlayer 0 = 'X' ∧ winnerMessagePlayer 1 = 'O' ∧
    getPositionLetter 0 = 'O' ∧ getPositionLetter 1 = 'X' ∧
    winnerMessage 0 =
      ["\n********************* GAME OVER ****************************",
       "Congratulations Player X !!! You Won!!!", "Thank You for playing"] ∧
    winnerMessage 1 =
      ["\n********************* GAME OVER ****************************",
       "Congratulations Player O !!! You Won!!!", "Thank You for playing"] := by
  refine ⟨by decide, by decide, by decide, by decide, by decide, by decide⟩

/-! ## The full-board test -/

/-- C15: for every board, `gameOver` returns `true` exactly when no cell is
blank, and `false` as soon as one cell is blank. -/
theorem gameOver_true_iff_no_blank :
    (∀ board : Board, gameOver board = true ↔ ∀ row col, board row col ≠ ' ') ∧
    (∀ board : Board, (∃ row col, board row col = ' ') → gameOver board = false) := by
  constructor
  · intro board
    exact gameOver_iff board
  · rintro board ⟨row, col, hb⟩
    cases hg : gameOver board with
    | false => rfl
    | true => exact absurd hb ((gameOver_iff board).1 hg row col)

/-- C15 on two boards: the empty board is not full, and the board
O X O / O X X / X O O is. -/
theorem gameOver_true_iff_no_blank_witness :
    gameOver (gameBoard fun _ _ => 'q') = false ∧
    gameOver (fun r c => if (r = 0 ∧ c = 1) ∨ (r = 1 ∧ c ≠ 0) ∨ (r = 2 ∧ c = 0)
      then 'X' else 'O') = true := by
  refine ⟨gameOver_true_iff_no_blank.2 _ ⟨0, 0, gameBoard_blank _ 0 0⟩, ?_⟩
  rw [gameOver_true_iff_no_blank.1]
  intro row col
  split_ifs <;> decide

/-! ## The flags of `checkWin` -/

theorem main_isOver_true (board : Board) (isDraw legalMove : Bool) (input : Input) :
    (main board true isDraw legalMove input).status = Status.done ∧
    (main board true isDraw legalMove input).input = input ∧
    (main board true isDraw legalMove input).vars.board = gameBoard board ∧
    (main board true isDraw legalMove input).vars.currentPlayer = 0 ∧
    (main board true isDraw legalMove input).events =
      if isDraw then [] else [Event.winner 0 'X'] := by
  cases isDraw <;> simp [main, mainLoop, Run.after, winnerMessagePlayer]

theorem gameTrace_head_check {board : Board} {cur : Int} {draw : Bool} {evs : List Event}
    {status : Status} {last : Board} {lastCur : Int} {o d : Bool}
    (h : GameTrace board cur draw evs status last lastCur o d)
    (hno : ¬ (hasLine board ∨ isFull board)) :
    ∃ tl, evs = Event.display board cur :: Event.check board false draw :: tl := by
  induction h with
  | over board cur draw d hcur hcheck => exact absurd (checkWin_over_draw hcheck).1 hno
  | waiting board cur draw moves status hcur hcheck hw hmoves => exact ⟨_, rfl⟩
  | move board cur draw moves after rest status last lastCur o d hcur hcheck hmoves hrest _ =>
    exact ⟨_, rfl⟩

theorem gameBoard_not_ended (board : Board) :
    ¬ (hasLine (gameBoard board) ∨ isFull (gameBoard board)) := by
  rintro (h | h)
  · exact gameBoard_no_line board h
  · exact h 0 0 (gameBoard_blank board 0 0)

/-- C17: on a board without complete line and with a blank cell `checkWin`
leaves `isOver` and `isDraw` at their incoming values, so it leaves
`isOver = false` only when that was the incoming value and it never turns an
incoming `true` into `false`; `main` entered with `isOver = true` returns at
once, before any call of `checkWin` and with the input unread, and names 'X' as
winner unless `isDraw` holds, while `main` entered with `isOver = false` starts
by `displayBoard` and `checkWin` on the empty board. -/
theorem checkWin_never_clears_flags :
    (∀ (board : Board) (isOver isDraw : Bool),
      ¬ hasLine board → (∃ row col, board row col = ' ') →
        checkWin board isOver isDraw = (isOver, isDraw)) ∧
    (∀ (board : Board) (isOver isDraw : Bool),
      (checkWin board isOver isDraw).1 = false →
        isOver = false ∧ ¬ hasLine board ∧ ∃ row col, board row col = ' ') ∧
    (∀ (board : Board) (isDraw : Bool), (checkWin board true isDraw).1 = true) ∧
    (∀ (board : Board) (isDraw legalMove : Bool) (input : Input),
      (main board true isDraw legalMove input).status = Status.done ∧
      (main board true isDraw legalMove input).input = input ∧
      (main board true isDraw legalMove input).vars.board = gameBoard board ∧
      (main board true isDraw legalMove input).events =
        if isDraw then [] else [Event.winner 0 'X']) ∧
    (∀ (board : Board) (isDraw legalMove : Bool) (input : Input), ∃ tl,
      (main board false isDraw legalMove input).events =
        Event.display (gameBoard board) 0 :: Event.check (gameBoard board) false isDraw :: tl) := by
  have hkeep : ∀ (board : Board) (isOver isDraw : Bool),
      (checkWin board isOver isDraw).1 = false →
        isOver = false ∧ ¬ hasLine board ∧ ∃ row col, board row col = ' ' := by
    intro board isOver isDraw h
    obtain ⟨hw, hd, hn⟩ := checkWin_cases board isOver isDraw
    by_cases hl : hasLine board
    · rw [hw hl] at h; simp at h
    · by_cases hf : isFull board
      · rw [hd hl hf] at h; simp at h
      · rw [hn hl hf] at h
        exact ⟨h, hl, (not_isFull_iff board).1 hf⟩
  refine ⟨?_, hkeep, ?_, ?_, ?_⟩
  · intro board isOver isDraw hl hb
    exact (checkWin_cases board isOver isDraw).2.2 hl ((not_isFull_iff board).2 hb)
  · intro board isDraw
    cases h : (checkWin board true isDraw).1 with
    | true => rfl
    | false => exact absurd (hkeep board true isDraw h).1 (by decide)
  · intro board isDraw legalMove input
    obtain ⟨h1, h2, h3, -, h5⟩ := main_isOver_true board isDraw legalMove input
    exact ⟨h1, h2, h3, h5⟩
  · intro board isDraw legalMove input
    obtain ⟨evs, htrace, hevs⟩ := main_trace board isDraw legalMove input
    obtain ⟨tl, htl⟩ := gameTrace_head_check htrace (gameBoard_not_ended board)
    rw [hevs, htl]
    exact ⟨_, rfl⟩

/-- C17 on the input (0,0): entered with `isOver = true` and `isDraw = false`,
`main` reads nothing and congratulates X on the empty board; on the board with
one O, `checkWin` hands back either incoming value of `isOver`. -/
theorem checkWin_never_clears_flags_witness :
    (main (fun _ _ => 'q') true false false [(0, 0)]).events = [Event.winner 0 'X'] ∧
    (main (fun _ _ => 'q') true false false [(0, 0)]).input = [(0, 0)] ∧
    checkWin (setCell (gameBoard fun _ _ => 'q') 1 1 'O') true false = (true, false) ∧
    checkWin (setCell (gameBoard fun _ _ => 'q') 1 1 'O') false true = (false, true) := by
  have hl : ¬ hasLine (setCell (gameBoard fun _ _ => 'q') 1 1 'O') := by
    rw [hasLine_iff]
    simp [lineComplete_iff, setCell, gameBoard_blank]
  have hb : ∃ row col, setCell (gameBoard fun _ _ => 'q') 1 1 'O' row col = ' ' :=
    ⟨0, 0, by simp [setCell, gameBoard_blank]⟩
  exact ⟨(checkWin_never_clears_flags.2.2.2.1 _ false false [(0, 0)]).2.2.2,
    (checkWin_never_clears_flags.2.2.2.1 _ false false [(0, 0)]).2.1,
    checkWin_never_clears_flags.1 _ true false hl hb,
    checkWin_never_clears_flags.1 _ false true hl hb⟩

/-! ## The initial state -/

theorem gameTrace_head_solicit {board : Board} {cur : Int} {draw : Bool} {evs : List Event}
    {status : Status} {last : Board} {lastCur : Int} {o d : Bool}
    (h : GameTrace board cur draw evs status last lastCur o d)
    (hno : ¬ (hasLine board ∨ isFull board)) :
    ∃ k tl, evs = Event.display board cur :: Event.check board false draw ::
      Event.solicit board cur (List.replicate (k + 1) (getPositionLetter cur)) :: tl := by
  induction h with
  | over board cur draw d hcur hcheck => exact absurd (checkWin_over_draw hcheck).1 hno
  | waiting board cur draw moves status hcur hcheck hw hmoves =>
    obtain ⟨k, tl, htl⟩ := hmoves.move_head
    exact ⟨k, tl, by rw [htl]⟩
  | move board cur draw moves after rest status last lastCur o d hcur hcheck hmoves hrest _ =>
    obtain ⟨k, tl, htl⟩ := hmoves.move_head
    exact ⟨k, _, by rw [htl]; rfl⟩

theorem moveTrace_waiting_marks {board : Board} {cur : Int} {evs : List Event}
    {status : Status} {last : Board} (h : MoveTrace board cur evs status last)
    (hs : status ≠ Status.done) : acceptedMarks evs = [] := by
  induction h with
  | waiting k status hw => rfl
  | accepted k row col r c hr hc hb => exact absurd rfl hs
  | rejected k row col r c hr hc hb rest status last _ ih =>
    simpa [acceptedMarks] using ih hs

theorem gameTrace_first_mark {board : Board} {cur : Int} {draw : Bool} {evs : List Event}
    {status : Status} {last : Board} {lastCur : Int} {o d : Bool}
    (h : GameTrace board cur draw evs status last lastCur o d) :
    ∀ m ∈ (acceptedMarks evs).head?, m = getPositionLetter cur := by
  induction h with
  | over board cur draw d hcur hcheck =>
    intro m hm
    simp [acceptedMarks] at hm
  | waiting board cur draw moves status hcur hcheck hw hmoves =>
    intro m hm
    simp [acceptedMarks, moveTrace_waiting_marks hmoves (not_done_of_stopped hw)] at hm
  | move board cur draw moves after rest status last lastCur o d hcur hcheck hmoves hrest _ =>
    intro m hm
    have hacc := (hmoves.done_cases rfl).2
    simp only [acceptedMarks, acceptedMarks_append, hacc, List.singleton_append,
      List.head?_cons, Option.mem_def, Option.some.injEq] at hm
    exact hm.symm

/-- C14: whatever the array holds before, after `gameBoard` all 9 cells are
blank; `main` starts with `currentPlayer = 0`: its first calls are
`displayBoard` and `checkWin` on the empty board and `getPosition` for player
0, whose prompt names 'O', and the first mark written, if any, is 'O'. -/
theorem gameBoard_blank_and_first_mover :
    (∀ (board : Board) (row col : Fin 3), gameBoard board row col = ' ') ∧
    (∀ (board : Board) (isDraw legalMove : Bool) (input : Input), ∃ k tl,
      (main board false isDraw legalMove input).events =
        Event.display (gameBoard board) 0 :: Event.check (gameBoard board) false isDraw ::
          Event.solicit (gameBoard board) 0 (List.replicate (k + 1) 'O') :: tl) ∧
    (∀ (board : Board) (isDraw legalMove : Bool) (input : Input),
      ∀ m ∈ (acceptedMarks (main board false isDraw legalMove input).events).head?, m = 'O') ∧
    (∀ (board : Board) (isDraw legalMove : Bool) (input : Input),
      (main board true isDraw legalMove input).vars.board = gameBoard board ∧
      (main board true isDraw legalMove input).vars.currentPlayer = 0) := by
  refine ⟨gameBoard_blank, ?_, ?_, ?_⟩
  · intro board isDraw legalMove input
    obtain ⟨evs, htrace, hevs⟩ := main_trace board isDraw legalMove input
    obtain ⟨k, tl, htl⟩ := gameTrace_head_solicit htrace (gameBoard_not_ended board)
    rw [hevs, htl]
    exact ⟨k, _, rfl⟩
  · intro board isDraw legalMove input m hm
    obtain ⟨evs, htrace, hevs⟩ := main_trace board isDraw legalMove input
    have h := gameTrace_first_mark htrace m
    rw [hevs, acceptedMarks_append] at hm
    have htail : acceptedMarks (if (main board false isDraw legalMove input).status =
        Status.done ∧ (main board false isDraw legalMove input).vars.isDraw = false then
        [Event.winner (main board false isDraw legalMove input).vars.currentPlayer
          (winnerMessagePlayer (main board false isDraw legalMove input).vars.currentPlayer)]
        else []) = [] := by
      split_ifs <;> rfl
    rw [htail, List.append_nil] at hm
    exact h hm
  · intro board isDraw legalMove input
    obtain ⟨-, -, h3, h4, -⟩ := main_isOver_true board isDraw legalMove input
    exact ⟨h3, h4⟩

/-- C14 on the input (2,2): the array first holds 'q' everywhere, the cell
(2,2) is blank after `gameBoard`, and the one mark written is 'O'. -/
theorem gameBoard_blank_and_first_mover_witness :
    gameBoard (fun _ _ => 'q') 2 2 = ' ' ∧
    acceptedMarks (main (fun _ _ => 'q') false false false [(2, 2)]).events = ['O'] := by
  refine ⟨gameBoard_blank_and_first_mover.1 _ 2 2, ?_⟩
  have h := gameBoard_blank_and_first_mover.2.2.1 (fun _ _ => 'q') false false [(2, 2)]
  have hlen : (acceptedMarks (main (fun _ _ => 'q') false false false [(2, 2)]).events).length
      = 1 := by decide
  match hm : acceptedMarks (main (fun _ _ => 'q') false false false [(2, 2)]).events with
  | [] => rw [hm] at hlen; simp at hlen
  | [m] =>
    rw [hm] at h
    rw [h m rfl]
  | _ :: _ :: _ => rw [hm] at hlen; simp at hlen

/-! ## The calls of `fillBoard` made by `main` -/

theorem subscript_range (i : Int) (r : Fin 3) (h : subscript i = some r) : 0 ≤ i ∧ i ≤ 2 := by
  have hv := subscript_val i r h
  have hlt := r.isLt
  omega

theorem moveTrace_fills {board : Board} {cur : Int} {evs : List Event} {status : Status}
    {last : Board} (h : MoveTrace board cur evs status last) :
    ∀ b c row col letter legal after, Event.fill b c row col letter legal after ∈ evs →
      b = board ∧ c = cur ∧ letter = getPositionLetter cur ∧
      ∃ r k, subscript row = some r ∧ subscript col = some k ∧
        (legal = true ↔ board r k = ' ') ∧
        after = if legal then setCell board r k letter else board := by
  induction h with
  | waiting k status hw =>
    intro b c row col letter legal after he
    simp at he
  | accepted k row col r c hr hc hb =>
    intro b c' row' col' letter legal after he
    simp only [List.mem_cons, reduceCtorEq, Event.fill.injEq, List.mem_singleton,
      List.not_mem_nil, or_false, false_or] at he
    obtain ⟨rfl, rfl, rfl, rfl, rfl, rfl, rfl⟩ := he
    exact ⟨rfl, rfl, rfl, r, c, hr, hc, by simp [hb], by simp⟩
  | rejected k row col r c hr hc hb rest status last _ ih =>
    intro b c' row' col' letter legal after he
    simp only [List.mem_cons, reduceCtorEq, Event.fill.injEq, false_or] at he
    rcases he with ⟨rfl, rfl, rfl, rfl, rfl, rfl, rfl⟩ | he
    · exact ⟨rfl, rfl, rfl, r, c, hr, hc, by simp [hb], by simp⟩
    · exact ih b c' row' col' letter legal after he

theorem gameTrace_fills {board : Board} {cur : Int} {draw : Bool} {evs : List Event}
    {status : Status} {last : Board} {lastCur : Int} {o d : Bool}
    (h : GameTrace board cur draw evs status last lastCur o d) :
    ∀ b c row col letter legal after, Event.fill b c row col letter legal after ∈ evs →
      (c = 0 ∨ c = 1) ∧ letter = getPositionLetter c ∧ ¬ (hasLine b ∨ isFull b) ∧
      ∃ r k, subscript row = some r ∧ subscript col = some k ∧
        (legal = true ↔ b r k = ' ') ∧
        after = if legal then setCell b r k letter else b := by
  induction h with
  | over board cur draw d hcur hcheck =>
    intro b c row col letter legal after he
    simp at he
  | waiting board cur draw moves status hcur hcheck hw hmoves =>
    intro b c row col letter legal after he
    simp only [List.mem_cons, reduceCtorEq, false_or] at he
    obtain ⟨rfl, rfl, hl, hrest⟩ := moveTrace_fills hmoves b c row col letter legal after he
    exact ⟨hcur, hl, checkWin_not_ended hcheck, hrest⟩
  | move board cur draw moves after rest status last lastCur o d hcur hcheck hmoves hrest ih =>
    intro b c row col letter legal after' he
    simp only [List.mem_cons, reduceCtorEq, false_or, List.mem_append] at he
    rcases he with he | he
    · obtain ⟨rfl, rfl, hl, hrest⟩ := moveTrace_fills hmoves b c row col letter legal after' he
      exact ⟨hcur, hl, checkWin_not_ended hcheck, hrest⟩
    · exact ih b c row col letter legal after' he

theorem moveTrace_solicits {board : Board} {cur : Int} {evs : List Event} {status : Status}
    {last : Board} (h : MoveTrace board cur evs status last) :
    ∀ b c ps, Event.solicit b c ps ∈ evs → b = board ∧ c = cur := by
  intro b c ps he
  have h1 := (h.move_events _ he).1
  simp only [Event.placementBoard, Option.some.injEq] at h1
  refine ⟨h1, ?_⟩
  clear h1
  induction h with
  | waiting k status hw =>
    simp only [List.mem_singleton, Event.solicit.injEq] at he
    exact he.2.1
  | accepted k row col r c' hr hc hb =>
    simp only [List.mem_cons, Event.solicit.injEq, reduceCtorEq, List.not_mem_nil,
      or_false] at he
    exact he.2.1
  | rejected k row col r c' hr hc hb rest status last _ ih =>
    simp only [List.mem_cons, Event.solicit.injEq, reduceCtorEq, false_or] at he
    rcases he with he | he
    · exact he.2.1
    · exact ih he

theorem gameTrace_solicits {board : Board} {cur : Int} {draw : Bool} {evs : List Event}
    {status : Status} {last : Board} {lastCur : Int} {o d : Bool}
    (h : GameTrace board cur draw evs status last lastCur o d) :
    ∀ b c ps, Event.solicit b c ps ∈ evs → c = 0 ∨ c = 1 := by
  induction h with
  | over board cur draw d hcur hcheck =>
    intro b c ps he
    simp at he
  | waiting board cur draw moves status hcur hcheck hw hmoves =>
    intro b c ps he
    simp only [List.mem_cons, reduceCtorEq, false_or] at he
    rw [(moveTrace_solicits hmoves b c ps he).2]
    exact hcur
  | move board cur draw moves after rest status last lastCur o d hcur hcheck hmoves hrest ih =>
    intro b c ps he
    simp only [List.mem_cons, reduceCtorEq, false_or, List.mem_append] at he
    rcases he with he | he
    · rw [(moveTrace_solicits hmoves b c ps he).2]
      exact hcur
    · exact ih b c ps he

/-- The events of `main` entered with `isOver = false` that are calls of
`fillBoard` or `getPosition` are those of its while loop. -/
theorem main_trace_mem (board : Board) (isDraw legalMove : Bool) (input : Input) :
    ∃ evs, GameTrace (gameBoard board) 0 isDraw evs
        (main board false isDraw legalMove input).status
        (main board false isDraw legalMove input).vars.board
        (main board false isDraw legalMove input).vars.currentPlayer
        (main board false isDraw legalMove input).vars.isOver
        (main board false isDraw legalMove input).vars.isDraw ∧
      ∀ e ∈ (main board false isDraw legalMove input).events,
        e ∈ evs ∨ ∃ cur m, e = Event.winner cur m := by
  obtain ⟨evs, htrace, hevs⟩ := main_trace board isDraw legalMove input
  refine ⟨evs, htrace, ?_⟩
  intro e he
  rw [hevs] at he
  rcases List.mem_append.1 he with he | he
  · exact Or.inl he
  · split_ifs at he
    · simp only [List.mem_singleton] at he
      exact Or.inr ⟨_, _, he⟩
    · simp at he

theorem getPositionLetter_cases (cur : Int) (h : cur = 0 ∨ cur = 1) :
    (cur = 0 ∧ getPositionLetter cur = 'O') ∨ (cur = 1 ∧ getPositionLetter cur = 'X') := by
  rcases h with rfl | rfl
  · exact Or.inl ⟨rfl, rfl⟩
  · exact Or.inr ⟨rfl, rfl⟩

/-- C13: in every run of `main` started with `isOver = false`, every call of
`fillBoard` made while `currentPlayer = 0` writes 'O' and every call made while
`currentPlayer = 1` writes 'X'; every prompt of `getPosition` names 'O' for
player 0 and 'X' for player 1; so the mark named in a prompt for a player is
the mark of every call of `fillBoard` made for that player. -/
theorem main_each_player_keeps_one_mark (board : Board) (isDraw legalMove : Bool)
    (input : Input) :
    (∀ b cur row col letter legal after,
      Event.fill b cur row col letter legal after ∈
          (main board false isDraw legalMove input).events →
        (cur = 0 ∧ letter = 'O') ∨ (cur = 1 ∧ letter = 'X')) ∧
    (∀ b cur ps, Event.solicit b cur ps ∈ (main board false isDraw legalMove input).events →
      ps ≠ [] ∧ ∀ p ∈ ps, (cur = 0 ∧ p = 'O') ∨ (cur = 1 ∧ p = 'X')) ∧
    (∀ b cur ps b' row col letter legal after,
      Event.solicit b cur ps ∈ (main board false isDraw legalMove input).events →
      Event.fill b' cur row col letter legal after ∈
          (main board false isDraw legalMove input).events →
        ∀ p ∈ ps, p = letter) := by
  obtain ⟨evs, htrace, hmem⟩ := main_trace_mem board isDraw legalMove input
  have hfill : ∀ b cur row col letter legal after,
      Event.fill b cur row col letter legal after ∈
          (main board false isDraw legalMove input).events →
        (cur = 0 ∨ cur = 1) ∧ letter = getPositionLetter cur := by
    intro b cur row col letter legal after he
    rcases hmem _ he with he | ⟨_, _, he⟩
    · obtain ⟨h1, h2, -⟩ := gameTrace_fills htrace b cur row col letter legal after he
      exact ⟨h1, h2⟩
    · cases he
  have hask : ∀ b cur ps, Event.solicit b cur ps ∈
      (main board false isDraw legalMove input).events →
        (cur = 0 ∨ cur = 1) ∧ ∃ k, ps = List.replicate (k + 1) (getPositionLetter cur) := by
    intro b cur ps he
    rcases hmem _ he with he | ⟨_, _, he⟩
    · exact ⟨gameTrace_solicits htrace b cur ps he, htrace.prompts b cur ps he⟩
    · cases he
  refine ⟨?_, ?_, ?_⟩
  · intro b cur row col letter legal after he
    obtain ⟨h1, h2⟩ := hfill b cur row col letter legal after he
    rw [h2]
    exact getPositionLetter_cases cur h1
  · intro b cur ps he
    obtain ⟨h1, k, rfl⟩ := hask b cur ps he
    refine ⟨by simp [List.replicate_succ], ?_⟩
    intro p hp
    rw [List.eq_of_mem_replicate hp]
    exact getPositionLetter_cases cur h1
  · intro b cur ps b' row col letter legal after hs hf p hp
    obtain ⟨-, k, rfl⟩ := hask b cur ps hs
    obtain ⟨-, h2⟩ := hfill b' cur row col letter legal after hf
    rw [List.eq_of_mem_replicate hp, h2]

theorem getPosition_iff (cur : Int) (input : Input) (row col : Int) (rest : Input) :
    getPosition cur input = Asked.pair row col rest ↔
      ∃ pre, input = pre ++ (row, col) :: rest ∧
        (∀ p ∈ pre, (-2147483648 ≤ p.1 ∧ p.1 ≤ 2147483647) ∧
          (-2147483648 ≤ p.2 ∧ p.2 ≤ 2147483647) ∧
          ((p.1 < 0 ∨ 2 < p.1) ∨ (p.2 < 0 ∨ 2 < p.2))) ∧
        (0 ≤ row ∧ row ≤ 2) ∧ (0 ≤ col ∧ col ≤ 2) := by
  induction input with
  | nil =>
    simp [getPosition]
  | cons q tl ih =>
    obtain ⟨a, b⟩ := q
    unfold getPosition
    by_cases hf : (fitsInt a && fitsInt b) = true
    · have hfab : (-2147483648 ≤ a ∧ a ≤ 2147483647) ∧ (-2147483648 ≤ b ∧ b ≤ 2147483647) := by
        rw [Bool.and_eq_true, fitsInt_iff, fitsInt_iff] at hf
        exact hf
      rw [if_pos hf]
      by_cases hb : outOfBound a b = true
      · rw [if_pos hb, ih]
        have hab := (outOfBound_iff a b).1 hb
        constructor
        · rintro ⟨pre, hpre, hall, hr, hc⟩
          refine ⟨(a, b) :: pre, by rw [hpre]; rfl, ?_, hr, hc⟩
          intro p hp
          rcases List.mem_cons.1 hp with rfl | hp
          · exact ⟨hfab.1, hfab.2, hab⟩
          · exact hall p hp
        · rintro ⟨pre, hpre, hall, hr, hc⟩
          cases pre with
          | nil =>
            simp only [List.nil_append, List.cons.injEq, Prod.mk.injEq] at hpre
            obtain ⟨⟨rfl, rfl⟩, -⟩ := hpre
            omega
          | cons q pre' =>
            simp only [List.cons_append, List.cons.injEq] at hpre
            exact ⟨pre', hpre.2, fun p hp => hall p (List.mem_cons_of_mem _ hp), hr, hc⟩
      · rw [if_neg hb]
        have hab : ¬ ((a < 0 ∨ 2 < a) ∨ (b < 0 ∨ 2 < b)) :=
          fun h => hb ((outOfBound_iff a b).2 h)
        constructor
        · intro h
          simp only [Asked.pair.injEq] at h
          obtain ⟨rfl, rfl, rfl⟩ := h
          exact ⟨[], rfl, by simp, by omega, by omega⟩
        · rintro ⟨pre, hpre, hall, hr, hc⟩
          cases pre with
          | nil =>
            simp only [List.nil_append, List.cons.injEq, Prod.mk.injEq] at hpre
            obtain ⟨⟨rfl, rfl⟩, rfl⟩ := hpre
            rfl
          | cons q pre' =>
            simp only [List.cons_append, List.cons.injEq] at hpre
            have := (hall q (List.mem_cons_self _ _)).2.2
            rw [← hpre.1] at this
            exact absurd this hab
    · rw [if_neg hf]
      constructor
      · intro h
        cases h
      · rintro ⟨pre, hpre, hall, hr, hc⟩
        exfalso
        apply hf
        cases pre with
        | nil =>
          simp only [List.nil_append, List.cons.injEq, Prod.mk.injEq] at hpre
          obtain ⟨⟨rfl, rfl⟩, -⟩ := hpre
          exact fits_pair _ _ (by omega) (by omega)
        | cons q pre' =>
          simp only [List.cons_append, List.cons.injEq] at hpre
          have := hall q (List.mem_cons_self _ _)
          rw [← hpre.1] at this
          exact fits_pair _ _ this.1 this.2.1

/-- When a number outside the range of `int` is typed before any pair in
`[0,2]`, `getPosition` never returns: the stream fails at that number. -/
theorem getPosition_fails_iff (cur : Int) (input : Input) (rest : Input) :
    getPosition cur input = Asked.fails rest ↔
      ∃ pre row col, input = pre ++ (row, col) :: rest ∧
        (∀ p ∈ pre, (-2147483648 ≤ p.1 ∧ p.1 ≤ 2147483647) ∧
          (-2147483648 ≤ p.2 ∧ p.2 ≤ 2147483647) ∧
          ((p.1 < 0 ∨ 2 < p.1) ∨ (p.2 < 0 ∨ 2 < p.2))) ∧
        ((row < -2147483648 ∨ 2147483647 < row) ∨
          (col < -2147483648 ∨ 2147483647 < col)) := by
  induction input with
  | nil =>
    simp [getPosition]
  | cons q tl ih =>
    obtain ⟨a, b⟩ := q
    unfold getPosition
    by_cases hf : (fitsInt a && fitsInt b) = true
    · have hfab : (-2147483648 ≤ a ∧ a ≤ 2147483647) ∧ (-2147483648 ≤ b ∧ b ≤ 2147483647) := by
        rw [Bool.and_eq_true, fitsInt_iff, fitsInt_iff] at hf
        exact hf
      rw [if_pos hf]
      by_cases hb : outOfBound a b = true
      · rw [if_pos hb, ih]
        have hab := (outOfBound_iff a b).1 hb
        constructor
        · rintro ⟨pre, row, col, hpre, hall, hbig⟩
          refine ⟨(a, b) :: pre, row, col, by rw [hpre]; rfl, ?_, hbig⟩
          intro p hp
          rcases List.mem_cons.1 hp with rfl | hp
          · exact ⟨hfab.1, hfab.2, hab⟩
          · exact hall p hp
        · rintro ⟨pre, row, col, hpre, hall, hbig⟩
          cases pre with
          | nil =>
            simp only [List.nil_append, List.cons.injEq, Prod.mk.injEq] at hpre
            obtain ⟨⟨rfl, rfl⟩, -⟩ := hpre
            omega
          | cons q pre' =>
            simp only [List.cons_append, List.cons.injEq] at hpre
            exact ⟨pre', row, col, hpre.2,
              fun p hp => hall p (List.mem_cons_of_mem _ hp), hbig⟩
      · rw [if_neg hb]
        have hab : ¬ ((a < 0 ∨ 2 < a) ∨ (b < 0 ∨ 2 < b)) :=
          fun h => hb ((outOfBound_iff a b).2 h)
        constructor
        · intro h
          cases h
        · rintro ⟨pre, row, col, hpre, hall, hbig⟩
          exfalso
          cases pre with
          | nil =>
            simp only [List.nil_append, List.cons.injEq, Prod.mk.injEq] at hpre
            obtain ⟨⟨rfl, rfl⟩, -⟩ := hpre
            omega
          | cons q pre' =>
            simp only [List.cons_append, List.cons.injEq] at hpre
            have := (hall q (List.mem_cons_self _ _)).2.2
            rw [← hpre.1] at this
            exact hab this
    · rw [if_neg hf]
      have hbig : (a < -2147483648 ∨ 2147483647 < a) ∨ (b < -2147483648 ∨ 2147483647 < b) := by
        rw [Bool.and_eq_true, fitsInt_iff, fitsInt_iff] at hf
        omega
      constructor
      · intro h
        simp only [Asked.fails.injEq] at h
        subst h
        exact ⟨[], a, b, rfl, by simp, hbig⟩
      · rintro ⟨pre, row, col, hpre, hall, hbig2⟩
        cases pre with
        | nil =>
          simp only [List.nil_append, List.cons.injEq, Prod.mk.injEq] at hpre
          rw [hpre.2]
        | cons q pre' =>
          exfalso
          simp only [List.cons_append, List.cons.injEq] at hpre
          have := hall q (List.mem_cons_self _ _)
          rw [← hpre.1] at this
          exact hf (fits_pair _ _ this.1 this.2.1)

theorem gameTrace_status {board : Board} {cur : Int} {draw : Bool} {evs : List Event}
    {status : Status} {last : Board} {lastCur : Int} {o d : Bool}
    (h : GameTrace board cur draw evs status last lastCur o d) :
    (status = Status.done ∧ o = true) ∨
      ((status = Status.awaitingInput ∨ status = Status.streamFailed) ∧ o = false) := by
  induction h with
  | over board cur draw d hcur hcheck => exact Or.inl ⟨rfl, rfl⟩
  | waiting board cur draw moves status hcur hcheck hw hmoves => exact Or.inr ⟨hw, rfl⟩
  | move board cur draw moves after rest status last lastCur o d hcur hcheck hmoves hrest ih =>
    exact ih

/-- C13 on the input (1,1), (0,0): the ninth event is the call of `fillBoard`
for player 1, and it writes 'X'. -/
theorem main_each_player_keeps_one_mark_witness :
    (1 : Int) = 0 ∧ 'X' = 'O' ∨ (1 : Int) = 1 ∧ 'X' = 'X' :=
  (main_each_player_keeps_one_mark (fun _ _ => 'q') false false [(1, 1), (0, 0)]).1
    (setCell (gameBoard fun _ _ => 'q') 1 1 'O') 1 0 0 'X' true
    (setCell (setCell (gameBoard fun _ _ => 'q') 1 1 'O') 0 0 'X')
    (by
      have h : (main (fun _ _ => 'q') false false false [(1, 1), (0, 0)]).events =
          (main (fun _ _ => 'q') false false false [(1, 1), (0, 0)]).events.take 8 ++
          Event.fill (setCell (gameBoard fun _ _ => 'q') 1 1 'O') 1 0 0 'X' true
            (setCell (setCell (gameBoard fun _ _ => 'q') 1 1 'O') 0 0 'X') ::
          (main (fun _ _ => 'q') false false false [(1, 1), (0, 0)]).events.drop 9 := rfl
      rw [h]
      exact List.mem_append_right _ (List.mem_cons_self _ _))

/-! ## Index safety -/

/-- C16: for every input, `getPosition` returns a pair exactly when that pair
is the first one of the input with `row` and `col` in `[0,2]` and the pairs
before it are values of `int`, these being discarded and the pairs after it left
unread; it never returns, the stream having failed, exactly when a number
outside the range of `int` is typed before any pair in `[0,2]`; so whenever it
returns, `0 <= row <= 2` and `0 <= col <= 2`.  In every run of `main` every call
of `fillBoard` has `0 <= row <= 2` and `0 <= col <= 2`, its access
`board[row][col]` is inside the array, and `main` never stops on an access
outside the array. -/
theorem main_fillBoard_in_range :
    (∀ (cur : Int) (input : Input) (row col : Int) (rest : Input),
      getPosition cur input = Asked.pair row col rest ↔
        ∃ pre, input = pre ++ (row, col) :: rest ∧
          (∀ p ∈ pre, (-2147483648 ≤ p.1 ∧ p.1 ≤ 2147483647) ∧
            (-2147483648 ≤ p.2 ∧ p.2 ≤ 2147483647) ∧
            ((p.1 < 0 ∨ 2 < p.1) ∨ (p.2 < 0 ∨ 2 < p.2))) ∧
          (0 ≤ row ∧ row ≤ 2) ∧ (0 ≤ col ∧ col ≤ 2)) ∧
    (∀ (cur : Int) (input : Input) (rest : Input),
      getPosition cur input = Asked.fails rest ↔
        ∃ pre row col, input = pre ++ (row, col) :: rest ∧
          (∀ p ∈ pre, (-2147483648 ≤ p.1 ∧ p.1 ≤ 2147483647) ∧
            (-2147483648 ≤ p.2 ∧ p.2 ≤ 2147483647) ∧
            ((p.1 < 0 ∨ 2 < p.1) ∨ (p.2 < 0 ∨ 2 < p.2))) ∧
          ((row < -2147483648 ∨ 2147483647 < row) ∨
            (col < -2147483648 ∨ 2147483647 < col))) ∧
    (∀ (board : Board) (isOver isDraw legalMove : Bool) (input : Input),
      (∀ b cur row col letter legal after,
        Event.fill b cur row col letter legal after ∈
            (main board isOver isDraw legalMove input).events →
          (0 ≤ row ∧ row ≤ 2) ∧ (0 ≤ col ∧ col ≤ 2) ∧ readCell b row col ≠ none) ∧
      (main board isOver isDraw legalMove input).status ≠ Status.undefinedAccess) := by
  refine ⟨getPosition_iff, getPosition_fails_iff, ?_⟩
  intro board isOver isDraw legalMove input
  cases isOver with
  | true =>
    obtain ⟨h1, -, -, -, h5⟩ := main_isOver_true board isDraw legalMove input
    refine ⟨?_, by rw [h1]; decide⟩
    intro b cur row col letter legal after he
    rw [h5] at he
    split_ifs at he <;> simp at he
  | false =>
    obtain ⟨evs, htrace, hmem⟩ := main_trace_mem board isDraw legalMove input
    refine ⟨?_, ?_⟩
    · intro b cur row col letter legal after he
      rcases hmem _ he with he | ⟨_, _, he⟩
      · obtain ⟨-, -, -, r, k, hr, hk, -⟩ :=
          gameTrace_fills htrace b cur row col letter legal after he
        refine ⟨subscript_range row r hr, subscript_range col k hk, ?_⟩
        rw [readCell_of_subscript b row col r k hr hk]
        simp
      · cases he
    · rcases gameTrace_status htrace with ⟨h, -⟩ | ⟨h | h, -⟩ <;> rw [h] <;> decide

/-- C16 on the input (7,1), (-1,0), (2,1), (0,0): `getPosition` skips the first
two pairs and returns (2,1), leaving (0,0) unread; on the input (7,1),
(2147483648,0), (1,1) it skips the first pair and never returns, the pair (1,1)
being never read. -/
theorem main_fillBoard_in_range_witness :
    getPosition 0 [(7, 1), (-1, 0), (2, 1), (0, 0)] = Asked.pair 2 1 [(0, 0)] ∧
    getPosition 0 [(7, 1), (2147483648, 0), (1, 1)] = Asked.fails [(1, 1)] :=
  ⟨(main_fillBoard_in_range.1 0 [(7, 1), (-1, 0), (2, 1), (0, 0)] 2 1 [(0, 0)]).2
    ⟨[(7, 1), (-1, 0)], rfl, by decide, by decide, by decide⟩,
   (main_fillBoard_in_range.2.1 0 [(7, 1), (2147483648, 0), (1, 1)] [(1, 1)]).2
    ⟨[(7, 1)], 2147483648, 0, rfl, by decide, by decide⟩⟩

/-! ## Bounded game length -/

theorem getPositionLetter_ne_blank (cur : Int) : getPositionLetter cur ≠ ' ' := by
  unfold getPositionLetter
  split_ifs <;> decide

theorem countMarks_le (board : Board) : countMarks board ≤ 9 := by
  unfold countMarks
  exact (List.countP_le_length _).trans (by simp [allCells])

theorem mem_allCells (p : Cell) : p ∈ allCells := by
  obtain ⟨r, c⟩ := p
  fin_cases r <;> fin_cases c <;> simp [allCells]

theorem isFull_of_countMarks (board : Board) (h : countMarks board = 9) : isFull board := by
  unfold countMarks at h
  have hlen : allCells.length = 9 := by simp [allCells]
  rw [← hlen, List.countP_eq_length] at h
  intro row col
  have := h (row, col) (mem_allCells _)
  simpa using this

theorem gameTrace_count {board : Board} {cur : Int} {draw : Bool} {evs : List Event}
    {status : Status} {last : Board} {lastCur : Int} {o d : Bool}
    (h : GameTrace board cur draw evs status last lastCur o d) :
    countMarks last = countMarks board + (acceptedMarks evs).length ∧
    (status ≠ Status.done → ¬ (hasLine last ∨ isFull last)) ∧
    (status = Status.done → Event.check last true d ∈ evs) := by
  induction h with
  | over board cur draw d hcur hcheck =>
    exact ⟨by simp [acceptedMarks], fun h => absurd rfl h, fun _ => (by simp)⟩
  | waiting board cur draw moves status hcur hcheck hw hmoves =>
    refine ⟨?_, fun _ => checkWin_not_ended hcheck,
      fun h => absurd h (not_done_of_stopped hw)⟩
    simp [acceptedMarks, moveTrace_waiting_marks hmoves (not_done_of_stopped hw)]
  | move board cur draw moves after rest status last lastCur o d hcur hcheck hmoves hrest ih =>
    obtain ⟨ih1, ih2, ih3⟩ := ih
    obtain ⟨⟨r, c, hb, hafter⟩, hacc⟩ := hmoves.done_cases rfl
    refine ⟨?_, ih2, ?_⟩
    · rw [ih1, hafter, countMarks_setCell board r c _ hb (getPositionLetter_ne_blank cur)]
      simp only [acceptedMarks, acceptedMarks_append, hacc, List.length_append,
        List.length_singleton]
      omega
    · intro hs
      have := ih3 hs
      simp only [List.mem_cons, List.mem_append]
      exact Or.inr (Or.inr (Or.inr (Or.inr this)))

/-- C18: in every run of `main` started with `isOver = false`, at most 9 calls
of `fillBoard` are accepted and the final board holds as many marks as calls
were accepted; once 9 calls are accepted the board is full, `checkWin` is
called on it and reports the game as over, and `main` returns; and a run always
ends by a return of `main`, in a wait for input, or in the prompts without end
of a failed stream, within the budget of the model and without an access outside
the array. -/
theorem main_at_most_nine_placements (board : Board) (isDraw legalMove : Bool)
    (input : Input) :
    (acceptedMarks (main board false isDraw legalMove input).events).length ≤ 9 ∧
    countMarks (main board false isDraw legalMove input).vars.board =
      (acceptedMarks (main board false isDraw legalMove input).events).length ∧
    ((acceptedMarks (main board false isDraw legalMove input).events).length = 9 →
      isFull (main board false isDraw legalMove input).vars.board ∧
      (main board false isDraw legalMove input).status = Status.done ∧
      (main board false isDraw legalMove input).vars.isOver = true ∧
      Event.check (main board false isDraw legalMove input).vars.board true
        (main board false isDraw legalMove input).vars.isDraw ∈
          (main board false isDraw legalMove input).events) ∧
    ((main board false isDraw legalMove input).status = Status.done ∨
      (main board false isDraw legalMove input).status = Status.awaitingInput ∨
      (main board false isDraw legalMove input).status = Status.streamFailed) := by
  obtain ⟨evs, htrace, hevs⟩ := main_trace board isDraw legalMove input
  obtain ⟨hcount, hwait, hdone⟩ := gameTrace_count htrace
  have hacc : acceptedMarks (main board false isDraw legalMove input).events =
      acceptedMarks evs := by
    rw [hevs, acceptedMarks_append]
    split_ifs <;> simp [acceptedMarks]
  rw [hacc]
  rw [countMarks_gameBoard, Nat.zero_add] at hcount
  have hle := countMarks_le (main board false isDraw legalMove input).vars.board
  refine ⟨by omega, hcount, ?_, ?_⟩
  · intro h9
    have hfull := isFull_of_countMarks _ (hcount.trans h9)
    rcases gameTrace_status htrace with ⟨hs, ho⟩ | ⟨hs, -⟩
    · refine ⟨hfull, hs, ho, ?_⟩
      rw [hevs]
      exact List.mem_append_left _ (hdone hs)
    · exact absurd (Or.inr hfull) (hwait (not_done_of_stopped hs))
  · rcases gameTrace_status htrace with ⟨hs, -⟩ | ⟨hs, -⟩
    · exact Or.inl hs
    · exact Or.inr hs

/-- On the input (1,1), (2147483648,0), (0,0) the run of `main` places O on
(1,1) and then stops in the call of `getPosition` for X with the stream failed:
nothing more is placed and the pair (0,0) is never read. -/
theorem main_stream_failed_example :
    (main (fun _ _ => 'q') false false false
      [(1, 1), (2147483648, 0), (0, 0)]).status = Status.streamFailed ∧
    (main (fun _ _ => 'q') false false false
      [(1, 1), (2147483648, 0), (0, 0)]).input = [(0, 0)] ∧
    (main (fun _ _ => 'q') false false false
      [(1, 1), (2147483648, 0), (0, 0)]).vars.currentPlayer = 1 ∧
    (acceptedMarks (main (fun _ _ => 'q') false false false
      [(1, 1), (2147483648, 0), (0, 0)]).events).length = 1 := by
  refine ⟨by decide, by decide, by decide, by decide⟩

/-- C18 on a game of 9 accepted placements that ends in a draw, followed by a
pair that is never read. -/
theorem main_at_most_nine_placements_witness :
    (acceptedMarks (main (fun _ _ => 'q') false false false
      [(0, 0), (0, 1), (0, 2), (1, 1), (1, 0), (1, 2), (2, 1), (2, 0), (2, 2),
       (1, 1)]).events).length = 9 ∧
    (main (fun _ _ => 'q') false false false
      [(0, 0), (0, 1), (0, 2), (1, 1), (1, 0), (1, 2), (2, 1), (2, 0), (2, 2),
       (1, 1)]).status = Status.done ∧
    (main (fun _ _ => 'q') false false false
      [(0, 0), (0, 1), (0, 2), (1, 1), (1, 0), (1, 2), (2, 1), (2, 0), (2, 2),
       (1, 1)]).input = [(1, 1)] := by
  have h9 : (acceptedMarks (main (fun _ _ => 'q') false false false
      [(0, 0), (0, 1), (0, 2), (1, 1), (1, 0), (1, 2), (2, 1), (2, 0), (2, 2),
       (1, 1)]).events).length = 9 := by decide
  exact ⟨h9, ((main_at_most_nine_placements (fun _ _ => 'q') false false
    [(0, 0), (0, 1), (0, 2), (1, 1), (1, 0), (1, 2), (2, 1), (2, 0), (2, 2),
     (1, 1)]).2.2.1 h9).2.1, by decide⟩

/-! ## Mark balance -/

theorem countOf_setCell (board : Board) (r c : Fin 3) (letter m : Char)
    (hb : board r c = ' ') (hm : m ≠ ' ') :
    countOf (setCell board r c letter) m = countOf board m + if letter = m then 1 else 0 := by
  have hm' : ¬ ' ' = m := fun h => hm h.symm
  by_cases hl : letter = m
  · subst hl
    fin_cases r <;> fin_cases c <;>
      simp_all [countOf, allCells, setCell, List.countP_cons] <;> omega
  · fin_cases r <;> fin_cases c <;>
      simp_all [countOf, allCells, setCell, List.countP_cons]

theorem balanced_gameBoard (board : Board) : Balanced (gameBoard board) 0 := by
  refine ⟨fun row col => Or.inl (gameBoard_blank board row col), ?_, ?_⟩
  · intro _
    simp [countOf, allCells, gameBoard_blank]
  · intro h
    cases h

theorem balanced_step (board : Board) (cur : Int) (r c : Fin 3)
    (hcur : cur = 0 ∨ cur = 1) (hbal : Balanced board cur) (hb : board r c = ' ') :
    Balanced (setCell board r c (getPositionLetter cur)) (changePlayer cur) := by
  obtain ⟨hcells, h0, h1⟩ := hbal
  have hO := countOf_setCell board r c (getPositionLetter cur) 'O' hb (by decide)
  have hX := countOf_setCell board r c (getPositionLetter cur) 'X' hb (by decide)
  rcases getPositionLetter_cases cur hcur with ⟨hc, hl⟩ | ⟨hc, hl⟩
  · rw [hl] at hO hX ⊢
    rw [if_pos rfl] at hO
    rw [if_neg (by decide)] at hX
    have hbal := h0 hc
    subst hc
    refine ⟨?_, fun h => by simp [changePlayer] at h, fun _ => by omega⟩
    intro row col
    unfold setCell
    split_ifs
    · exact Or.inr (Or.inr rfl)
    · exact hcells row col
  · rw [hl] at hO hX ⊢
    rw [if_neg (by decide)] at hO
    rw [if_pos rfl] at hX
    have hbal := h1 hc
    subst hc
    refine ⟨?_, fun _ => by omega, fun h => by simp [changePlayer] at h⟩
    intro row col
    unfold setCell
    split_ifs
    · exact Or.inr (Or.inl rfl)
    · exact hcells row col

theorem gameTrace_display_player {board : Board} {cur : Int} {draw : Bool}
    {evs : List Event} {status : Status} {last : Board} {lastCur : Int} {o d : Bool}
    (h : GameTrace board cur draw evs status last lastCur o d) :
    ∀ b c, Event.display b c ∈ evs → c = 0 ∨ c = 1 := by
  induction h with
  | over board cur draw d hcur hcheck =>
    intro b c he
    simp only [List.mem_cons, Event.display.injEq, reduceCtorEq, List.not_mem_nil,
      or_false] at he
    rw [he.2]
    exact hcur
  | waiting board cur draw moves status hcur hcheck hw hmoves =>
    intro b c he
    simp only [List.mem_cons, Event.display.injEq, reduceCtorEq, false_or] at he
    rcases he with ⟨-, rfl⟩ | he
    · exact hcur
    · have := (hmoves.move_events _ he).1
      simp [Event.placementBoard] at this
  | move board cur draw moves after rest status last lastCur o d hcur hcheck hmoves hrest ih =>
    intro b c he
    simp only [List.mem_cons, Event.display.injEq, reduceCtorEq, false_or,
      List.mem_append] at he
    rcases he with ⟨-, rfl⟩ | he | he
    · exact hcur
    · have := (hmoves.move_events _ he).1
      simp [Event.placementBoard] at this
    · exact ih b c he

theorem gameTrace_balanced {board : Board} {cur : Int} {draw : Bool} {evs : List Event}
    {status : Status} {last : Board} {lastCur : Int} {o d : Bool}
    (h : GameTrace board cur draw evs status last lastCur o d) (hbal : Balanced board cur) :
    ∀ b c, Event.display b c ∈ evs → Balanced b c := by
  induction h with
  | over board cur draw d hcur hcheck =>
    intro b c he
    simp only [List.mem_cons, Event.display.injEq, reduceCtorEq, List.not_mem_nil,
      or_false] at he
    obtain ⟨rfl, rfl⟩ := he
    exact hbal
  | waiting board cur draw moves status hcur hcheck hw hmoves =>
    intro b c he
    simp only [List.mem_cons, Event.display.injEq, reduceCtorEq, false_or] at he
    rcases he with ⟨rfl, rfl⟩ | he
    · exact hbal
    · have := (hmoves.move_events _ he).1
      simp [Event.placementBoard] at this
  | move board cur draw moves after rest status last lastCur o d hcur hcheck hmoves hrest ih =>
    intro b c he
    obtain ⟨⟨r, k, hb, hafter⟩, -⟩ := hmoves.done_cases rfl
    simp only [List.mem_cons, Event.display.injEq, reduceCtorEq, false_or,
      List.mem_append] at he
    rcases he with ⟨rfl, rfl⟩ | he | he
    · exact hbal
    · have := (hmoves.move_events _ he).1
      simp [Event.placementBoard] at this
    · exact ih (by rw [hafter]; exact balanced_step board cur r k hcur hbal hb) b c he

/-- C19: in every run of `main` started with `isOver = false`, at every head
of the while loop (the call of `displayBoard`, line 118) every cell of the
board is ' ', 'X' or 'O', the number of 'O' cells equals the number of 'X'
cells when `currentPlayer = 0` and exceeds it by one when `currentPlayer = 1`,
and `currentPlayer` is 0 or 1. -/
theorem main_mark_balance (board : Board) (isDraw legalMove : Bool) (input : Input) :
    ∀ b cur, Event.display b cur ∈ (main board false isDraw legalMove input).events →
      (∀ row col, b row col = ' ' ∨ b row col = 'X' ∨ b row col = 'O') ∧
      (cur = 0 → countOf b 'O' = countOf b 'X') ∧
      (cur = 1 → countOf b 'O' = countOf b 'X' + 1) ∧
      (cur = 0 ∨ cur = 1) := by
  intro b cur he
  obtain ⟨evs, htrace, hmem⟩ := main_trace_mem board isDraw legalMove input
  rcases hmem _ he with he | ⟨_, _, he⟩
  · obtain ⟨h1, h2, h3⟩ := gameTrace_balanced htrace (balanced_gameBoard board) b cur he
    exact ⟨h1, h2, h3, gameTrace_display_player htrace b cur he⟩
  · cases he

/-- C19 on the input (1,1): the second head of the loop is reached with
player 1 to move on the board that holds one 'O' and no 'X'. -/
theorem main_mark_balance_witness :
    (∀ row col, setCell (gameBoard fun _ _ => 'q') 1 1 'O' row col = ' ' ∨
      setCell (gameBoard fun _ _ => 'q') 1 1 'O' row col = 'X' ∨
      setCell (gameBoard fun _ _ => 'q') 1 1 'O' row col = 'O') ∧
    ((1 : Int) = 0 → countOf (setCell (gameBoard fun _ _ => 'q') 1 1 'O') 'O' =
      countOf (setCell (gameBoard fun _ _ => 'q') 1 1 'O') 'X') ∧
    ((1 : Int) = 1 → countOf (setCell (gameBoard fun _ _ => 'q') 1 1 'O') 'O' =
      countOf (setCell (gameBoard fun _ _ => 'q') 1 1 'O') 'X' + 1) ∧
    ((1 : Int) = 0 ∨ (1 : Int) = 1) :=
  main_mark_balance (fun _ _ => 'q') false false [(1, 1)]
    (setCell (gameBoard fun _ _ => 'q') 1 1 'O') 1
    (by
      have h : (main (fun _ _ => 'q') false false false [(1, 1)]).events =
          (main (fun _ _ => 'q') false false false [(1, 1)]).events.take 5 ++
          Event.display (setCell (gameBoard fun _ _ => 'q') 1 1 'O') 1 ::
          (main (fun _ _ => 'q') false false false [(1, 1)]).events.drop 6 := rfl
      rw [h]
      exact List.mem_append_right _ (List.mem_cons_self _ _))

/-! ## At most one winner -/

/-- A line completed by writing one cell of a board without complete line holds
the mark written and passes through the cell written. -/
theorem lineOf_setCell_through (board : Board) (r c : Fin 3) (letter m : Char)
    (l : Cell × Cell × Cell) (hl : l ∈ winningLines) (hno : ¬ hasLine board)
    (h : lineOf (setCell board r c letter) m l) :
    m = letter ∧ ((r, c) = l.1 ∨ (r, c) = l.2.1 ∨ (r, c) = l.2.2) := by
  refine ⟨lineOf_setCell board r c letter m l hl hno h, ?_⟩
  obtain ⟨p1, p2, p3⟩ := l
  obtain ⟨hm, h1, h2, h3⟩ := h
  simp only [setCell] at h1 h2 h3
  by_cases e1 : p1.1 = r ∧ p1.2 = c
  · exact Or.inl (Prod.ext e1.1.symm e1.2.symm)
  · by_cases e2 : p2.1 = r ∧ p2.2 = c
    · exact Or.inr (Or.inl (Prod.ext e2.1.symm e2.2.symm))
    · by_cases e3 : p3.1 = r ∧ p3.2 = c
      · exact Or.inr (Or.inr (Prod.ext e3.1.symm e3.2.symm))
      · rw [if_neg e1] at h1
        rw [if_neg e2] at h2
        rw [if_neg e3] at h3
        exact absurd ⟨(p1, p2, p3), hl, m, hm, h1, h2, h3⟩ hno

theorem moveTrace_done_fill {board : Board} {cur : Int} {evs : List Event} {status : Status}
    {last : Board} (h : MoveTrace board cur evs status last) (hd : status = Status.done) :
    ∃ row col r c, Event.fill board cur row col (getPositionLetter cur) true last ∈ evs ∧
      subscript row = some r ∧ subscript col = some c ∧ board r c = ' ' ∧
      last = setCell board r c (getPositionLetter cur) := by
  induction h with
  | waiting k status hw => rcases hw with rfl | rfl <;> cases hd
  | accepted k row col r c hr hc hb =>
    exact ⟨row, col, r, c, by simp, hr, hc, hb, rfl⟩
  | rejected k row col r c hr hc hb rest status last _ ih =>
    obtain ⟨row', col', r', c', hmem, h1, h2, h3, h4⟩ := ih hd
    exact ⟨row', col', r', c',
      List.mem_cons_of_mem _ (List.mem_cons_of_mem _ hmem), h1, h2, h3, h4⟩

/-- The origin of a board with a complete line met in the while loop of `main`:
the board the loop started on, or the board left by an accepted call of
`fillBoard` made on a board without complete line. -/
theorem gameTrace_lines {board : Board} {cur : Int} {draw : Bool} {evs : List Event}
    {status : Status} {last : Board} {lastCur : Int} {o d : Bool}
    (h : GameTrace board cur draw evs status last lastCur o d) :
    ∀ e ∈ evs, ∀ b ∈ e.boards, hasLine b →
      b = board ∨ ∃ b0 c row col r k,
        Event.fill b0 c row col (getPositionLetter c) true b ∈ evs ∧
        subscript row = some r ∧ subscript col = some k ∧ ¬ hasLine b0 ∧
        b = setCell b0 r k (getPositionLetter c) := by
  induction h with
  | over board cur draw d hcur hcheck =>
    intro e he b hb _
    simp only [List.mem_cons, List.mem_singleton, List.not_mem_nil, or_false] at he
    rcases he with rfl | rfl <;> exact Or.inl (by simpa [Event.boards] using hb)
  | waiting board cur draw moves status hcur hcheck hw hmoves =>
    intro e he b hb _
    simp only [List.mem_cons] at he
    rcases he with rfl | rfl | he
    · exact Or.inl (by simpa [Event.boards] using hb)
    · exact Or.inl (by simpa [Event.boards] using hb)
    · rcases (hmoves.move_events e he).2 b hb with h | h <;> exact Or.inl h
  | move board cur draw moves after rest status last lastCur o d hcur hcheck hmoves hrest ih =>
    intro e he b hb hline
    have hno : ¬ hasLine board := fun h => checkWin_not_ended hcheck (Or.inl h)
    obtain ⟨row, col, r, k, hfill, hr, hk, -, hafter⟩ := moveTrace_done_fill hmoves rfl
    have hfrom : b = after → ∃ b0 c row col r k,
        Event.fill b0 c row col (getPositionLetter c) true b ∈
          Event.display board cur :: Event.check board false draw ::
            (moves ++ Event.change after cur (changePlayer cur) :: rest) ∧
        subscript row = some r ∧ subscript col = some k ∧ ¬ hasLine b0 ∧
        b = setCell b0 r k (getPositionLetter c) := by
      intro hba
      subst hba
      exact ⟨board, cur, row, col, r, k,
        List.mem_cons_of_mem _ (List.mem_cons_of_mem _ (List.mem_append_left _ hfill)),
        hr, hk, hno, hafter⟩
    simp only [List.mem_cons, List.mem_append] at he
    rcases he with rfl | rfl | he | rfl | he
    · exact Or.inl (by simpa [Event.boards] using hb)
    · exact Or.inl (by simpa [Event.boards] using hb)
    · rcases (hmoves.move_events e he).2 b hb with h | h
      · exact Or.inl h
      · exact Or.inr (hfrom h)
    · exact Or.inr (hfrom (by simpa [Event.boards] using hb))
    · rcases ih e he b hb hline with h | ⟨b0, c, row', col', r', k', hmem, h1, h2, h3, h4⟩
      · exact Or.inr (hfrom h)
      · exact Or.inr ⟨b0, c, row', col', r', k',
          List.mem_cons_of_mem _ (List.mem_cons_of_mem _
            (List.mem_append_right _ (List.mem_cons_of_mem _ hmem))), h1, h2, h3, h4⟩

theorem main_events_frozen (board : Board) (isDraw legalMove : Bool) (input : Input) :
    (main board false isDraw legalMove input).events.Pairwise FrozenAfter := by
  obtain ⟨evs, htrace, hevs⟩ := main_trace board isDraw legalMove input
  rw [hevs, List.pairwise_append]
  refine ⟨htrace.frozen, ?_, ?_⟩
  · split_ifs <;> simp
  · intro x _ y hy b _ _
    split_ifs at hy
    · simp only [List.mem_singleton] at hy
      subst hy
      refine ⟨rfl, by simp [Event.boards], ?_⟩
      intro b' o d heq
      cases heq
    · simp at hy

/-- C20: in every run of `main` started with `isOver = false`, on every board
an event is made on or leaves, 'X' and 'O' do not both hold a complete line and
all complete lines hold the same mark; if the board has a complete line it was
left by an accepted call of `fillBoard` after which no placement is solicited
or applied any more, and every complete line holds the mark that call wrote
and passes through the cell it wrote. -/
theorem main_at_most_one_winner (board : Board) (isDraw legalMove : Bool) (input : Input) :
    ∀ e ∈ (main board false isDraw legalMove input).events, ∀ b ∈ e.boards,
      (∀ l1 ∈ winningLines, ∀ l2 ∈ winningLines, ¬ (lineOf b 'X' l1 ∧ lineOf b 'O' l2)) ∧
      (∀ l1 ∈ winningLines, ∀ l2 ∈ winningLines, ∀ m1 m2,
        lineOf b m1 l1 → lineOf b m2 l2 → m1 = m2) ∧
      (hasLine b → ∃ pre post b0 cur row col letter r c,
        (main board false isDraw legalMove input).events =
          pre ++ Event.fill b0 cur row col letter true b :: post ∧
        (∀ e' ∈ post, e'.placementBoard = none) ∧
        subscript row = some r ∧ subscript col = some c ∧
        ∀ l ∈ winningLines, ∀ m, lineOf b m l →
          m = letter ∧ ((r, c) = l.1 ∨ (r, c) = l.2.1 ∨ (r, c) = l.2.2)) := by
  intro e he b hb
  obtain ⟨evs, htrace, hevs⟩ := main_trace board isDraw legalMove input
  have hfrozen := main_events_frozen board isDraw legalMove input
  have horigin : hasLine b → ∃ b0 c row col r k,
      Event.fill b0 c row col (getPositionLetter c) true b ∈
        (main board false isDraw legalMove input).events ∧
      subscript row = some r ∧ subscript col = some k ∧ ¬ hasLine b0 ∧
      b = setCell b0 r k (getPositionLetter c) := by
    intro hline
    have he' : e ∈ evs := by
      rw [hevs] at he
      rcases List.mem_append.1 he with he | he
      · exact he
      · split_ifs at he
        · simp only [List.mem_singleton] at he
          subst he
          simp [Event.boards] at hb
        · simp at he
    rcases gameTrace_lines htrace e he' b hb hline with h | ⟨b0, c, row, col, r, k, hm, h⟩
    · rw [h] at hline
      exact absurd hline (gameBoard_no_line board)
    · exact ⟨b0, c, row, col, r, k, by rw [hevs]; exact List.mem_append_left _ hm, h⟩
  have hsame : ∀ l1 ∈ winningLines, ∀ l2 ∈ winningLines, ∀ m1 m2,
      lineOf b m1 l1 → lineOf b m2 l2 → m1 = m2 := by
    intro l1 hl1 l2 hl2 m1 m2 h1 h2
    obtain ⟨b0, c, row, col, r, k, -, -, -, hno, hbeq⟩ := horigin ⟨l1, hl1, m1, h1⟩
    rw [hbeq] at h1 h2
    rw [lineOf_setCell b0 r k _ m1 l1 hl1 hno h1, lineOf_setCell b0 r k _ m2 l2 hl2 hno h2]
  refine ⟨?_, hsame, ?_⟩
  · rintro l1 hl1 l2 hl2 ⟨h1, h2⟩
    exact absurd (hsame l1 hl1 l2 hl2 'X' 'O' h1 h2) (by decide)
  · intro hline
    obtain ⟨b0, c, row, col, r, k, hmem, hr, hk, hno, hbeq⟩ := horigin hline
    obtain ⟨pre, post, hsplit⟩ := List.append_of_mem hmem
    refine ⟨pre, post, b0, c, row, col, getPositionLetter c, r, k, hsplit, ?_, hr, hk, ?_⟩
    · intro e' he'
      rw [hsplit] at hfrozen
      have hrel := (List.pairwise_cons.1 (List.pairwise_append.1 hfrozen).2.1).1 e' he'
      exact (hrel b (by simp [Event.boards]) (Or.inl hline)).1
    · intro l hl m hm
      rw [hbeq] at hm
      exact lineOf_setCell_through b0 r k _ m l hl hno hm

/-- C20 on the game O (0,0), X (1,0), O (0,1), X (1,1), O (0,2): the board of
the last call of `checkWin`, whose top row is held by O, was left by an
accepted call of `fillBoard` that no placement follows, and its complete lines
pass through the cell that call wrote. -/
theorem main_at_most_one_winner_witness :
    ∃ pre post b0 cur row col letter r c,
      (main (fun _ _ => 'q') false true false
        [(0, 0), (1, 0), (0, 1), (1, 1), (0, 2)]).events =
        pre ++ Event.fill b0 cur row col letter true
          (main (fun _ _ => 'q') false true false
            [(0, 0), (1, 0), (0, 1), (1, 1), (0, 2)]).vars.board :: post ∧
      (∀ e' ∈ post, e'.placementBoard = none) ∧
      subscript row = some r ∧ subscript col = some c ∧
      ∀ l ∈ winningLines, ∀ m,
        lineOf (main (fun _ _ => 'q') false true false
          [(0, 0), (1, 0), (0, 1), (1, 1), (0, 2)]).vars.board m l →
        m = letter ∧ ((r, c) = l.1 ∨ (r, c) = l.2.1 ∨ (r, c) = l.2.2) :=
  (main_at_most_one_winner (fun _ _ => 'q') true false
    [(0, 0), (1, 0), (0, 1), (1, 1), (0, 2)]
    (Event.check (main (fun _ _ => 'q') false true false
      [(0, 0), (1, 0), (0, 1), (1, 1), (0, 2)]).vars.board true false)
    (by
      have hev : (main (fun _ _ => 'q') false true false
          [(0, 0), (1, 0), (0, 1), (1, 1), (0, 2)]).events =
          (main (fun _ _ => 'q') false true false
            [(0, 0), (1, 0), (0, 1), (1, 1), (0, 2)]).events.take 26 ++
          Event.check (main (fun _ _ => 'q') false true false
            [(0, 0), (1, 0), (0, 1), (1, 1), (0, 2)]).vars.board true false ::
          (main (fun _ _ => 'q') false true false
            [(0, 0), (1, 0), (0, 1), (1, 1), (0, 2)]).events.drop 27 := rfl
      rw [hev]
      exact List.mem_append_right _ (List.mem_cons_self _ _))
    (main (fun _ _ => 'q') false true false
      [(0, 0), (1, 0), (0, 1), (1, 1), (0, 2)]).vars.board
    (by simp [Event.boards])).2.2
    ⟨((0, 0), (0, 1), (0, 2)), by simp [winningLines], 'O', by decide, rfl, rfl, rfl⟩

/-! ## When the turn is advanced -/

theorem changeFollows_of_not {e1 e2 : Event} (h1 : ¬ e1.IsAccepted) (h2 : ¬ e2.IsChange) :
    ChangeFollowsAccepted e1 e2 :=
  ⟨fun b cur next he => absurd ⟨b, cur, next, he⟩ h2,
   fun b0 cur row col letter b he => absurd ⟨b0, cur, row, col, letter, b, he⟩ h1⟩

theorem not_accepted_solicit (b : Board) (cur : Int) (ps : List Char) :
    ¬ (Event.solicit b cur ps).IsAccepted := by
  rintro ⟨_, _, _, _, _, _, h⟩; cases h

theorem not_accepted_display (b : Board) (cur : Int) : ¬ (Event.display b cur).IsAccepted := by
  rintro ⟨_, _, _, _, _, _, h⟩; cases h

theorem not_accepted_check (b : Board) (o d : Bool) : ¬ (Event.check b o d).IsAccepted := by
  rintro ⟨_, _, _, _, _, _, h⟩; cases h

theorem not_accepted_change (b : Board) (cur next : Int) :
    ¬ (Event.change b cur next).IsAccepted := by
  rintro ⟨_, _, _, _, _, _, h⟩; cases h

theorem not_accepted_winner (cur : Int) (m : Char) : ¬ (Event.winner cur m).IsAccepted := by
  rintro ⟨_, _, _, _, _, _, h⟩; cases h

theorem not_accepted_rejected (b : Board) (cur row col : Int) (letter : Char) (after : Board) :
    ¬ (Event.fill b cur row col letter false after).IsAccepted := by
  rintro ⟨_, _, _, _, _, _, h⟩; cases h

theorem not_change_solicit (b : Board) (cur : Int) (ps : List Char) :
    ¬ (Event.solicit b cur ps).IsChange := by
  rintro ⟨_, _, _, h⟩; cases h

theorem not_change_display (b : Board) (cur : Int) : ¬ (Event.display b cur).IsChange := by
  rintro ⟨_, _, _, h⟩; cases h

theorem not_change_check (b : Board) (o d : Bool) : ¬ (Event.check b o d).IsChange := by
  rintro ⟨_, _, _, h⟩; cases h

theorem not_change_winner (cur : Int) (m : Char) : ¬ (Event.winner cur m).IsChange := by
  rintro ⟨_, _, _, h⟩; cases h

theorem not_change_fill (b : Board) (cur row col : Int) (letter : Char) (legal : Bool)
    (after : Board) : ¬ (Event.fill b cur row col letter legal after).IsChange := by
  rintro ⟨_, _, _, h⟩; cases h

/-- In the do-while of `main` the accepted call of `fillBoard`, if any, is the
last event. -/
theorem moveTrace_changeFollows {board : Board} {cur : Int} {evs : List Event}
    {status : Status} {last : Board} (h : MoveTrace board cur evs status last) :
    evs.Chain' ChangeFollowsAccepted ∧
    (∀ x ∈ evs.getLast?,
      (status ≠ Status.done → ¬ x.IsAccepted) ∧
      (status = Status.done → ∃ row col,
        x = Event.fill board cur row col (getPositionLetter cur) true last)) := by
  induction h with
  | waiting k status hw =>
    refine ⟨List.chain'_singleton _, ?_⟩
    intro x hx
    simp only [List.getLast?_singleton, Option.mem_def, Option.some.injEq] at hx
    subst hx
    exact ⟨fun _ => not_accepted_solicit _ _ _,
      fun h => absurd h (not_done_of_stopped hw)⟩
  | accepted k row col r c hr hc hb =>
    refine ⟨List.chain'_cons.2 ⟨changeFollows_of_not (not_accepted_solicit _ _ _)
      (not_change_fill _ _ _ _ _ _ _), List.chain'_singleton _⟩, ?_⟩
    intro x hx
    simp only [List.getLast?_cons_cons, List.getLast?_singleton, Option.mem_def,
      Option.some.injEq] at hx
    subst hx
    exact ⟨fun h => absurd rfl h, fun _ => ⟨row, col, rfl⟩⟩
  | rejected k row col r c hr hc hb rest status last hrest ih =>
    obtain ⟨k', tl, htl⟩ := hrest.move_head
    obtain ⟨ih1, ih2⟩ := ih
    subst htl
    refine ⟨List.chain'_cons.2 ⟨changeFollows_of_not (not_accepted_solicit _ _ _)
      (not_change_fill _ _ _ _ _ _ _), List.chain'_cons.2
        ⟨changeFollows_of_not (not_accepted_rejected _ _ _ _ _ _)
          (not_change_solicit _ _ _), ih1⟩⟩, ?_⟩
    intro x hx
    rw [List.getLast?_cons_cons, List.getLast?_cons_cons] at hx
    exact ih2 x hx

theorem gameTrace_changeFollows {board : Board} {cur : Int} {draw : Bool} {evs : List Event}
    {status : Status} {last : Board} {lastCur : Int} {o d : Bool}
    (h : GameTrace board cur draw evs status last lastCur o d) :
    evs.Chain' ChangeFollowsAccepted ∧ ∀ x ∈ evs.getLast?, ¬ x.IsAccepted := by
  induction h with
  | over board cur draw d hcur hcheck =>
    refine ⟨List.chain'_cons.2 ⟨changeFollows_of_not (not_accepted_display _ _)
      (not_change_check _ _ _), List.chain'_singleton _⟩, ?_⟩
    intro x hx
    simp only [List.getLast?_cons_cons, List.getLast?_singleton, Option.mem_def,
      Option.some.injEq] at hx
    subst hx
    exact not_accepted_check _ _ _
  | waiting board cur draw moves status hcur hcheck hw hmoves =>
    obtain ⟨k, tl, htl⟩ := hmoves.move_head
    obtain ⟨h1, h2⟩ := moveTrace_changeFollows hmoves
    subst htl
    refine ⟨List.chain'_cons.2 ⟨changeFollows_of_not (not_accepted_display _ _)
      (not_change_check _ _ _), List.chain'_cons.2
        ⟨changeFollows_of_not (not_accepted_check _ _ _) (not_change_solicit _ _ _), h1⟩⟩, ?_⟩
    intro x hx
    rw [List.getLast?_cons_cons, List.getLast?_cons_cons] at hx
    exact (h2 x hx).1 (not_done_of_stopped hw)
  | move board cur draw moves after rest status last lastCur o d hcur hcheck hmoves hrest ih =>
    obtain ⟨k, tl, htl⟩ := hmoves.move_head
    obtain ⟨h1, h2⟩ := moveTrace_changeFollows hmoves
    obtain ⟨rtl, hrtl⟩ := hrest.head
    obtain ⟨ih1, ih2⟩ := ih
    have hne : Event.change after cur (changePlayer cur) :: rest ≠ [] := by simp
    have hchain : (moves ++ Event.change after cur (changePlayer cur) :: rest).Chain'
        ChangeFollowsAccepted := by
      rw [List.chain'_append]
      refine ⟨h1, ?_, ?_⟩
      · rw [hrtl] at ih1 ⊢
        exact List.chain'_cons.2 ⟨changeFollows_of_not (not_accepted_change _ _ _)
          (not_change_display _ _), ih1⟩
      · intro x hx y hy
        obtain ⟨row, col, hxeq⟩ := (h2 x hx).2 rfl
        simp only [List.head?_cons, Option.mem_def, Option.some.injEq] at hy
        subst hxeq hy
        constructor
        · intro b c n he
          cases he
          exact ⟨rfl, _, _, _, _, rfl⟩
        · intro b0 c row' col' letter b he
          cases he
          rfl
    have hlast : ∀ x ∈ (moves ++ Event.change after cur (changePlayer cur) :: rest).getLast?,
        ¬ x.IsAccepted := by
      intro x hx
      rw [List.getLast?_append_of_ne_nil _ hne, hrtl, List.getLast?_cons_cons, ← hrtl] at hx
      exact ih2 x hx
    subst htl
    refine ⟨List.chain'_cons.2 ⟨changeFollows_of_not (not_accepted_display _ _)
      (not_change_check _ _ _), List.chain'_cons.2
        ⟨changeFollows_of_not (not_accepted_check _ _ _) (not_change_solicit _ _ _),
          hchain⟩⟩, ?_⟩
    intro x hx
    rw [List.cons_append] at hx
    rw [List.getLast?_cons_cons, List.getLast?_cons_cons] at hx
    exact hlast x (by rw [List.cons_append]; exact hx)

theorem main_changeFollows (board : Board) (isDraw legalMove : Bool) (input : Input) :
    (main board false isDraw legalMove input).events.Chain' ChangeFollowsAccepted ∧
    (∀ x ∈ (main board false isDraw legalMove input).events.getLast?, ¬ x.IsAccepted) ∧
    ∃ tl, (main board false isDraw legalMove input).events =
      Event.display (gameBoard board) 0 :: tl := by
  obtain ⟨evs, htrace, hevs⟩ := main_trace board isDraw legalMove input
  obtain ⟨hchain, hlast⟩ := gameTrace_changeFollows htrace
  obtain ⟨tl, htl⟩ := htrace.head
  refine ⟨?_, ?_, ?_⟩
  · rw [hevs]
    split_ifs
    · exact List.chain'_append.2 ⟨hchain, List.chain'_singleton _, fun x hx y hy => by
        simp only [List.head?_cons, Option.mem_def, Option.some.injEq] at hy
        subst hy
        exact changeFollows_of_not (hlast x hx) (not_change_winner _ _)⟩
    · rw [List.append_nil]
      exact hchain
  · rw [hevs]
    split_ifs
    · intro x hx
      rw [List.getLast?_concat] at hx
      simp only [Option.mem_def, Option.some.injEq] at hx
      subst hx
      exact not_accepted_winner _ _
    · rw [List.append_nil]
      exact hlast
  · rw [hevs, htl]
    exact ⟨_, rfl⟩

/-- C11 as the code has it: in the game O (0,0), X (1,0), O (0,1), X (1,1),
O (0,2) `changePlayer` is called after the placement that completes the top
row, on a board with a complete line. -/
theorem main_changePlayer_after_winning_move :
    Event.change (main (fun _ _ => 'q') false true false
        [(0, 0), (1, 0), (0, 1), (1, 1), (0, 2)]).vars.board 0 1 ∈
      (main (fun _ _ => 'q') false true false
        [(0, 0), (1, 0), (0, 1), (1, 1), (0, 2)]).events ∧
    hasLine (main (fun _ _ => 'q') false true false
      [(0, 0), (1, 0), (0, 1), (1, 1), (0, 2)]).vars.board := by
  constructor
  · have hev : (main (fun _ _ => 'q') false true false
        [(0, 0), (1, 0), (0, 1), (1, 1), (0, 2)]).events =
        (main (fun _ _ => 'q') false true false
          [(0, 0), (1, 0), (0, 1), (1, 1), (0, 2)]).events.take 24 ++
        Event.change (main (fun _ _ => 'q') false true false
          [(0, 0), (1, 0), (0, 1), (1, 1), (0, 2)]).vars.board 0 1 ::
        (main (fun _ _ => 'q') false true false
          [(0, 0), (1, 0), (0, 1), (1, 1), (0, 2)]).events.drop 25 := rfl
    rw [hev]
    exact List.mem_append_right _ (List.mem_cons_self _ _)
  · exact ⟨((0, 0), (0, 1), (0, 2)), by simp [winningLines], 'O', by decide, rfl, rfl, rfl⟩

/-- C11 amended: in every run of `main` started with `isOver = false`, a call
of `changePlayer` comes right after an accepted call of `fillBoard`, on the
board that call left and for the player who made it, and every accepted call of
`fillBoard` is followed at once by such a call of `changePlayer`, whatever the
board it left. -/
theorem main_changePlayer_after_every_accepted (board : Board) (isDraw legalMove : Bool)
    (input : Input) :
    (∀ pre post b cur next,
      (main board false isDraw legalMove input).events =
        pre ++ Event.change b cur next :: post →
      next = changePlayer cur ∧
      ∃ pre' b0 row col letter, pre = pre' ++ [Event.fill b0 cur row col letter true b]) ∧
    (∀ pre post b0 cur row col letter b,
      (main board false isDraw legalMove input).events =
        pre ++ Event.fill b0 cur row col letter true b :: post →
      ∃ tl, post = Event.change b cur (changePlayer cur) :: tl) := by
  obtain ⟨hchain, hlast, tl, htl⟩ := main_changeFollows board isDraw legalMove input
  constructor
  · intro pre post b cur next hsplit
    rcases List.eq_nil_or_concat pre with rfl | ⟨pre', e1, rfl⟩
    · rw [htl] at hsplit
      simp at hsplit
    · rw [List.concat_eq_append] at hsplit ⊢
      rw [hsplit, List.append_assoc, List.singleton_append] at hchain
      obtain ⟨h1, b0, row, col, letter, h2⟩ :=
        (List.chain'_cons.1 (List.chain'_split.1 hchain).2).1.1 b cur next rfl
      exact ⟨h1, pre', b0, row, col, letter, by rw [h2]⟩
  · intro pre post b0 cur row col letter b hsplit
    rw [hsplit] at hchain hlast
    cases post with
    | nil =>
      exact absurd ⟨b0, cur, row, col, letter, b, rfl⟩
        (hlast _ (by rw [List.getLast?_concat]; rfl))
    | cons y tl' =>
      have := (List.chain'_cons.1 (List.chain'_split.1 hchain).2).1.2 b0 cur row col letter b rfl
      exact ⟨tl', by rw [this]⟩

/-- C11 amended, on the game O (0,0), X (1,0), O (0,1), X (1,1), O (0,2): the
call of `fillBoard` that completes the top row is followed by `changePlayer`. -/
theorem main_changePlayer_after_every_accepted_witness :
    ∃ tl, (main (fun _ _ => 'q') false true false
        [(0, 0), (1, 0), (0, 1), (1, 1), (0, 2)]).events.drop 24 =
      Event.change (main (fun _ _ => 'q') false true false
        [(0, 0), (1, 0), (0, 1), (1, 1), (0, 2)]).vars.board 0 (changePlayer 0) :: tl :=
  (main_changePlayer_after_every_accepted (fun _ _ => 'q') true false
    [(0, 0), (1, 0), (0, 1), (1, 1), (0, 2)]).2
    ((main (fun _ _ => 'q') false true false
      [(0, 0), (1, 0), (0, 1), (1, 1), (0, 2)]).events.take 23)
    ((main (fun _ _ => 'q') false true false
      [(0, 0), (1, 0), (0, 1), (1, 1), (0, 2)]).events.drop 24)
    (setCell (setCell (setCell (setCell (gameBoard fun _ _ => 'q') 0 0 'O') 1 0 'X') 0 1 'O')
      1 1 'X') 0 0 2 'O'
    (main (fun _ _ => 'q') false true false
      [(0, 0), (1, 0), (0, 1), (1, 1), (0, 2)]).vars.board rfl

end TicTacToe
